import Mathlib

/-!
# vector.h : RawMemory<T> and Vector<T>

A shallow embedding of `src/vector.h`.

* Memory is an explicit heap of storage blocks.  A block is a list of slots; a slot is
  either raw (uninitialised, `none`) or holds a live object (`some x`).
* A `T*` is a block address together with an element offset; address `0` is `nullptr`.
* `size_t` is 64 bits wide: the arithmetic the source performs on `size_t`
  (`n * sizeof(T)`, `sz * 2`, `++sz`, `--sz`) is taken modulo `2 ^ 64`.
* Every operation returns an `Option`: `none` stands for undefined behaviour (access outside
  a block, use of a raw slot as an object, release of an address that is not a live block).
* `operator new` always succeeds and element operations do not throw, except in the section
  on exceptions, where a failing `operator new` and a throwing copy constructor are injected.
* The element type is described by `ElemOps`: its size, `T()`, `T(const T&)`, `T(T&&)` and
  `operator=(const T&)`.  That copies, moves and assignments preserve the value is a
  hypothesis of the theorems that need it.
* A vector object is a record of its fields; an operation takes the heap and the object and
  returns the new object and the new heap.  `Vector.WF` is the class invariant of an object
  in a heap.
-/

namespace VectorH

/-! ## Machine model -/

/-- Number of values of `size_t` (a 64-bit unsigned integer). -/
def SIZE_MOD : Nat := 2 ^ 64

/-- The operations of the element type `T` that `vector.h` relies on. -/
structure ElemOps (T : Type) where
  /-- The value `sizeof(T)`. -/
  sizeOf : Nat
  /-- In C++ `sizeof(T)` is at least one. -/
  sizeOf_pos : 0 < sizeOf
  /-- The value `sizeof(T)` is itself a `size_t`. -/
  sizeOf_lt : sizeOf < SIZE_MOD
  /-- The value-initialised object `T()`. -/
  dflt : T
  /-- The object built by `T(const T&)` from its argument. -/
  copy : T → T
  /-- The object built by `T(T&&)` from its argument. -/
  move : T → T
  /-- The new value of `x` after `x = y`, as `assign x y`. -/
  assign : T → T → T

/-- A pointer `T*`: the address of a storage block and an element offset into it.
Address `0` is the null pointer. -/
structure Ptr where
  base : Nat
  off : Nat
  deriving DecidableEq, Repr

/-- The null pointer. -/
def nullptr : Ptr := ⟨0, 0⟩

/-- Pointer arithmetic `p + i`. -/
def Ptr.add (p : Ptr) (i : Nat) : Ptr := ⟨p.base, p.off + i⟩

/-- Pointer arithmetic `p - i`; forming a pointer before the start of the block is undefined. -/
def Ptr.sub (p : Ptr) (i : Nat) : Option Ptr :=
  if i ≤ p.off then some ⟨p.base, p.off - i⟩ else none

/-- A storage block: a list of slots, each raw (`none`) or holding a live object. -/
abbrev Block (T : Type) := List (Option T)

/-- The heap: the block of address `a + 1` is entry `a` of `blocks`; a released block is
`none`. -/
structure Heap (T : Type) where
  blocks : List (Option (Block T))
  deriving DecidableEq, Repr

variable {T : Type}

/-- The live block at address `a`, if any. -/
def Heap.block? (h : Heap T) : Nat → Option (Block T)
  | 0 => none
  | a + 1 =>
    match h.blocks[a]? with
    | some (some b) => some b
    | _ => none

/-- Replace the block at address `a`. -/
def Heap.setBlock (h : Heap T) : Nat → Option (Block T) → Heap T
  | 0, _ => h
  | a + 1, b => ⟨h.blocks.set a b⟩

/-- The slot a pointer designates: `none` when the pointer does not point into a live block. -/
def Heap.slot? (h : Heap T) (p : Ptr) : Option (Option T) :=
  match h.block? p.base with
  | some b => b[p.off]?
  | none => none

/-- Read the live object `*p`; undefined on a raw slot or outside a live block. -/
def Heap.load (h : Heap T) (p : Ptr) : Option T :=
  match h.slot? p with
  | some (some x) => some x
  | _ => none

/-- Overwrite the slot `p` designates; undefined outside a live block. -/
def Heap.store (h : Heap T) (p : Ptr) (s : Option T) : Option (Heap T) :=
  match h.block? p.base with
  | some b => if p.off < b.length then some (h.setBlock p.base (some (b.set p.off s))) else none
  | none => none

/-- The call `operator new(bytes)`: a fresh block with room for `bytes / sizeof(T)` objects,
all raw.  The address returned is never null, also for `bytes = 0`. -/
def operator_new (E : ElemOps T) (h : Heap T) (bytes : Nat) : Ptr × Heap T :=
  (⟨h.blocks.length + 1, 0⟩, ⟨h.blocks ++ [some (List.replicate (bytes / E.sizeOf) none)]⟩)

/-- The call `operator delete(p)`: nothing for the null pointer, otherwise `p` must be the
start of a live block, which is released. -/
def operator_delete (h : Heap T) (p : Ptr) : Option (Heap T) :=
  if p = nullptr then some h
  else if p.off = 0 then
    match h.block? p.base with
    | some _ => some (h.setBlock p.base none)
    | none => none
  else none

/-- Placement new `new (p) T(x)`: the slot at `p` becomes a live object of value `x` (an
object already there is overwritten, not destroyed). -/
def construct_at (h : Heap T) (p : Ptr) (x : T) : Option (Heap T) :=
  h.store p (some x)

/-- The call `std::destroy_at(p)`: the object at `p` must be live; its slot becomes raw. -/
def destroy_at (h : Heap T) (p : Ptr) : Option (Heap T) :=
  match h.load p with
  | some _ => h.store p none
  | none => none

/-- The call `std::destroy_n(first, n)`. -/
def destroy_n (h : Heap T) (first : Ptr) : Nat → Option (Heap T)
  | 0 => some h
  | n + 1 =>
    match destroy_at h first with
    | some h1 => destroy_n h1 (first.add 1) n
    | none => none

/-- The call `std::uninitialized_value_construct_n(first, n)`. -/
def uninitialized_value_construct_n (E : ElemOps T) (h : Heap T) (first : Ptr) :
    Nat → Option (Heap T)
  | 0 => some h
  | n + 1 =>
    match construct_at h first E.dflt with
    | some h1 => uninitialized_value_construct_n E h1 (first.add 1) n
    | none => none

/-- The loop shared by `std::uninitialized_copy_n` and `std::uninitialized_move_n`: for each
of the `count` objects from `first`, in order, read it and construct `mk` of it at the
destination. -/
def uninitialized_construct_n (mk : T → T) (h : Heap T) (first : Ptr) (count : Nat)
    (d_first : Ptr) : Option (Heap T) :=
  match count with
  | 0 => some h
  | n + 1 =>
    match h.load first with
    | some x =>
      match construct_at h d_first (mk x) with
      | some h1 => uninitialized_construct_n mk h1 (first.add 1) n (d_first.add 1)
      | none => none
    | none => none

/-- The call `std::uninitialized_copy_n(first, count, d_first)`. -/
def uninitialized_copy_n (E : ElemOps T) (h : Heap T) (first : Ptr) (count : Nat)
    (d_first : Ptr) : Option (Heap T) :=
  uninitialized_construct_n E.copy h first count d_first

/-- The call `std::uninitialized_move_n(first, count, d_first)`.  The moved-from objects stay
live (in a valid state that nothing below reads) until they are destroyed. -/
def uninitialized_move_n (E : ElemOps T) (h : Heap T) (first : Ptr) (count : Nat)
    (d_first : Ptr) : Option (Heap T) :=
  uninitialized_construct_n E.move h first count d_first

/-! ## RawMemory -/

/-- The class `RawMemory<T>`: the fields `buf` and `cp`. -/
structure RawMemory where
  buf : Ptr
  cp : Nat
  deriving DecidableEq, Repr

/-- The default member initialisers `buf = nullptr`, `cp = 0` (`RawMemory() = default`). -/
def RawMemory.default : RawMemory := ⟨nullptr, 0⟩

/-- The static `RawMemory::Allocate(n)`: `operator new(n * sizeof(T))`, the product taken in
`size_t`. -/
def RawMemory.Allocate (E : ElemOps T) (h : Heap T) (n : Nat) : Ptr × Heap T :=
  operator_new E h (n * E.sizeOf % SIZE_MOD)

/-- The static `RawMemory::Deallocate(buf)`. -/
def RawMemory.Deallocate (h : Heap T) (buf : Ptr) : Option (Heap T) :=
  operator_delete h buf

/-- The member `RawMemory::Swap`: returns the new `*this` and the new `other`. -/
def RawMemory.Swap (self other : RawMemory) : RawMemory × RawMemory :=
  (⟨other.buf, other.cp⟩, ⟨self.buf, self.cp⟩)

/-- The constructor `RawMemory(size_t n)`. -/
def RawMemory.ctor_n (E : ElemOps T) (h : Heap T) (n : Nat) : RawMemory × Heap T :=
  let r := RawMemory.Allocate E h n
  (⟨r.1, n⟩, r.2)

/-- The destructor `~RawMemory()`. -/
def RawMemory.dtor (h : Heap T) (self : RawMemory) : Option (Heap T) :=
  RawMemory.Deallocate h self.buf

/-- The member `operator+(i)`: the pointer `buf + i`. -/
def RawMemory.plus (self : RawMemory) (i : Nat) : Ptr := self.buf.add i

/-- The member `operator[](i)`: the object `buf[i]`. -/
def RawMemory.index (h : Heap T) (self : RawMemory) (i : Nat) : Option T :=
  h.load (self.buf.add i)

/-! ## Vector -/

/-- The class `Vector<T>`: the fields `sz` and `data`. -/
structure Vector where
  sz : Nat
  data : RawMemory
  deriving DecidableEq, Repr

/-- The member `size()`. -/
def Vector.size (self : Vector) : Nat := self.sz

/-- The member `capacity()`. -/
def Vector.capacity (self : Vector) : Nat := self.data.cp

/-- The member `operator[](i)` read as a value: `data[i]`. -/
def Vector.index (h : Heap T) (self : Vector) (i : Nat) : Option T :=
  RawMemory.index h self.data i

/-- The constructor `Vector() = default`: `sz = 0` and an empty `data`. -/
def Vector.ctor_default : Vector := ⟨0, RawMemory.default⟩

/-- The constructor `Vector(size_t n)`. -/
def Vector.ctor_n (E : ElemOps T) (h : Heap T) (n : Nat) : Option (Vector × Heap T) :=
  let r := RawMemory.ctor_n E h n
  match uninitialized_value_construct_n E r.2 r.1.buf n with
  | some h1 => some (⟨n, r.1⟩, h1)
  | none => none

/-- The copy constructor `Vector(const Vector& other)`. -/
def Vector.ctor_copy (E : ElemOps T) (h : Heap T) (other : Vector) : Option (Vector × Heap T) :=
  let r := RawMemory.ctor_n E h other.sz
  match uninitialized_copy_n E r.2 other.data.buf other.sz r.1.buf with
  | some h1 => some (⟨other.sz, r.1⟩, h1)
  | none => none

/-- The member `swap`: returns the new `*this` and the new `other`. -/
def Vector.swap (self other : Vector) : Vector × Vector :=
  let d := RawMemory.Swap self.data other.data
  (⟨other.sz, d.1⟩, ⟨self.sz, d.2⟩)

/-- The move constructor `Vector(Vector&& other)`: the members take their default
initialisers, then `swap(other)`.  Returns the new object and the new `other`. -/
def Vector.ctor_move (other : Vector) : Vector × Vector :=
  Vector.swap Vector.ctor_default other

/-- The destructor `~Vector()`: `std::destroy_n(data.buf, sz)`, then `~RawMemory()`. -/
def Vector.dtor (h : Heap T) (self : Vector) : Option (Heap T) :=
  match destroy_n h self.data.buf self.sz with
  | some h1 => RawMemory.dtor h1 self.data
  | none => none

/-- The loop `for (i = 0; i < sz && i < other.sz; ++i) data[i] = other[i];` of copy
assignment, run for `k` more iterations from index `i`. -/
def Vector.assign_loop (E : ElemOps T) (self other : Vector) :
    Nat → Nat → Heap T → Option (Heap T)
  | 0, _, h => some h
  | k + 1, i, h =>
    match RawMemory.index h other.data i, RawMemory.index h self.data i with
    | some y, some x =>
      match h.store (self.data.buf.add i) (some (E.assign x y)) with
      | some h1 => Vector.assign_loop E self other k (i + 1) h1
      | none => none
    | _, _ => none

/-- Copy assignment `operator=(const Vector& other)`.  The argument `other` may be the
object itself: its fields are only read before `*this` changes, and its elements are read
from the heap. -/
def Vector.assign_copy (E : ElemOps T) (h : Heap T) (self other : Vector) :
    Option (Vector × Heap T) :=
  if other.sz > self.data.cp then
    match Vector.ctor_copy E h other with
    | some (tmp, h1) =>
      let s := Vector.swap self tmp
      match Vector.dtor h1 s.2 with
      | some h2 => some (s.1, h2)
      | none => none
    | none => none
  else
    match Vector.assign_loop E self other (min self.sz other.sz) 0 h with
    | some h1 =>
      let r :=
        if self.sz < other.sz then
          uninitialized_copy_n E h1 (other.data.buf.add self.sz) (other.sz - self.sz)
            (self.data.buf.add self.sz)
        else if self.sz > other.sz then
          destroy_n h1 (self.data.buf.add other.sz) (self.sz - other.sz)
        else some h1
      match r with
      | some h2 => some (⟨other.sz, self.data⟩, h2)
      | none => none
    | none => none

/-- Move assignment `operator=(Vector&& other)`: returns the new `*this` and the new
`other`. -/
def Vector.assign_move (self other : Vector) : Vector × Vector :=
  Vector.swap self other

/-- The member `reserve(n)`. -/
def Vector.reserve (E : ElemOps T) (h : Heap T) (self : Vector) (n : Nat) :
    Option (Vector × Heap T) :=
  if n > self.data.cp then
    let r := RawMemory.ctor_n E h n
    match uninitialized_move_n E r.2 self.data.buf self.sz r.1.buf with
    | some h1 =>
      match destroy_n h1 self.data.buf self.sz with
      | some h2 =>
        let d := RawMemory.Swap self.data r.1
        match RawMemory.dtor h2 d.2 with
        | some h3 => some (⟨self.sz, d.1⟩, h3)
        | none => none
      | none => none
    | none => none
  else some (self, h)

/-- The member `resize(n)`. -/
def Vector.resize (E : ElemOps T) (h : Heap T) (self : Vector) (n : Nat) :
    Option (Vector × Heap T) :=
  match Vector.reserve E h self n with
  | some (v, h1) =>
    let r :=
      if v.sz < n then uninitialized_value_construct_n E h1 (v.data.plus v.sz) (n - v.sz)
      else if v.sz > n then destroy_n h1 (v.data.plus n) (v.sz - n)
      else some h1
    match r with
    | some h2 => some (⟨n, v.data⟩, h2)
    | none => none
  | none => none

/-- The member `push_back(const T& elem)`; `elem` is an object outside the vector. -/
def Vector.push_back (E : ElemOps T) (h : Heap T) (self : Vector) (elem : T) :
    Option (Vector × Heap T) :=
  let r :=
    if self.sz = self.data.cp then
      Vector.reserve E h self (if self.sz = 0 then 1 else self.sz * 2 % SIZE_MOD)
    else some (self, h)
  match r with
  | some (v, h1) =>
    match construct_at h1 (v.data.plus v.sz) (E.copy elem) with
    | some h2 => some (⟨(v.sz + 1) % SIZE_MOD, v.data⟩, h2)
    | none => none
  | none => none

/-- The member `push_back(T&& elem)`; `elem` is an object outside the vector. -/
def Vector.push_back_move (E : ElemOps T) (h : Heap T) (self : Vector) (elem : T) :
    Option (Vector × Heap T) :=
  let r :=
    if self.sz = self.data.cp then
      Vector.reserve E h self (if self.sz = 0 then 1 else self.sz * 2 % SIZE_MOD)
    else some (self, h)
  match r with
  | some (v, h1) =>
    match construct_at h1 (v.data.plus v.sz) (E.move elem) with
    | some h2 => some (⟨(v.sz + 1) % SIZE_MOD, v.data⟩, h2)
    | none => none
  | none => none

/-- The member `pop_back()`: `std::destroy_at(data + sz - 1)`, then `--sz`. -/
def Vector.pop_back (h : Heap T) (self : Vector) : Option (Vector × Heap T) :=
  match (self.data.plus self.sz).sub 1 with
  | some p =>
    match destroy_at h p with
    | some h1 => some (⟨(self.sz + SIZE_MOD - 1) % SIZE_MOD, self.data⟩, h1)
    | none => none
  | none => none

/-- The member `clear()`. -/
def Vector.clear (E : ElemOps T) (h : Heap T) (self : Vector) : Option (Vector × Heap T) :=
  Vector.resize E h self 0

/-! ## Well-formed objects -/

/-- The class invariant of a live `Vector` in heap `h`: `sz ≤ cp`; the block of `cp` objects
fits in `size_t` bytes; `buf` is null with `cp = 0`, or is the start of a live block of
exactly `cp` slots whose first `sz` slots hold live objects. -/
def Vector.WF (E : ElemOps T) (h : Heap T) (v : Vector) : Prop :=
  v.sz ≤ v.data.cp ∧ v.data.cp * E.sizeOf < SIZE_MOD ∧ v.data.buf.off = 0 ∧
  (match h.block? v.data.buf.base with
   | some b => b.length = v.data.cp ∧ ∀ i, i < v.sz → (b.getD i none).isSome = true
   | none => v.data.buf.base = 0 ∧ v.data.cp = 0)

instance (E : ElemOps T) (h : Heap T) (v : Vector) : Decidable (v.WF E h) := by
  unfold Vector.WF
  cases h.block? v.data.buf.base <;> infer_instance

/-- Two vector objects do not share storage: they own different blocks, or both are the
same object. -/
def Vector.Separate (a b : Vector) : Prop :=
  a.data.buf.base ≠ b.data.buf.base ∨ a = b

/-- Element operations of a 64-bit integer type, used for concrete runs. -/
def natOps : ElemOps Nat :=
  ⟨8, by decide, by decide, 0, fun x => x, fun x => x, fun _ y => y⟩

/-- The empty heap. -/
def Heap.empty : Heap T := ⟨[]⟩

/-- A heap with one block of four slots, three of them live. -/
def demoHeap : Heap Nat := ⟨[some [some 1, some 2, some 3, none]]⟩

/-- The vector of size 3 and capacity 4 that owns the block of `demoHeap`. -/
def demoVec : Vector := ⟨3, ⟨⟨1, 0⟩, 4⟩⟩

/-- A heap with three blocks: eight slots with five live objects, two slots with two live
objects, and ten slots with ten live objects. -/
def demoHeap3 : Heap Nat :=
  ⟨[some [some 1, some 2, some 3, some 4, some 5, none, none, none],
    some [some 7, some 8],
    some [some 10, some 11, some 12, some 13, some 14, some 15, some 16, some 17, some 18,
      some 19]]⟩

/-- The vector of size 5 and capacity 8 that owns the first block of `demoHeap3`. -/
def demoA : Vector := ⟨5, ⟨⟨1, 0⟩, 8⟩⟩

/-- The vector of size 2 and capacity 2 that owns the second block of `demoHeap3`. -/
def demoB : Vector := ⟨2, ⟨⟨2, 0⟩, 2⟩⟩

/-- The vector of size 10 and capacity 10 that owns the third block of `demoHeap3`. -/
def demoC : Vector := ⟨10, ⟨⟨3, 0⟩, 10⟩⟩

/-- Append the values of a list by `push_back`, in order. -/
def push_all (E : ElemOps T) (h : Heap T) (v : Vector) : List T → Option (Vector × Heap T)
  | [] => some (v, h)
  | x :: xs =>
    match Vector.push_back E h v x with
    | some (v1, h1) => push_all E h1 v1 xs
    | none => none

/-- The heap that `demoA.reserve(2 ^ 61 + 8)` returns from `demoHeap3`: the request of
`(2 ^ 61 + 8) * 8 mod 2 ^ 64 = 64` bytes gives a fourth block, of eight slots; the five
elements have been moved into it and the first block has been released. -/
def wrapHeap : Heap Nat :=
  ⟨[none,
    some [some 7, some 8],
    some [some 10, some 11, some 12, some 13, some 14, some 15, some 16, some 17, some 18,
      some 19],
    some [some 1, some 2, some 3, some 4, some 5, none, none, none]]⟩

/-- The object `demoA` as `reserve(2 ^ 61 + 8)` leaves it: size 5, capacity `2 ^ 61 + 8`,
and the block of eight slots of `wrapHeap`.  It has `size <= capacity` but is outside the
class invariant `Vector.WF`: its block does not hold `capacity` slots. -/
def wrapA : Vector := ⟨5, ⟨⟨4, 0⟩, 2 ^ 61 + 8⟩⟩

/-- The heap `wrapHeap` after `push_back` of 6, 7 and 8 on `wrapA`: the block of eight
slots is full. -/
def wrapFullHeap : Heap Nat :=
  ⟨[none,
    some [some 7, some 8],
    some [some 10, some 11, some 12, some 13, some 14, some 15, some 16, some 17, some 18,
      some 19],
    some [some 1, some 2, some 3, some 4, some 5, some 6, some 7, some 8]]⟩

/-- The object `wrapA` after `push_back` of 6, 7 and 8: size 8, capacity `2 ^ 61 + 8`. -/
def wrapFull : Vector := ⟨8, ⟨⟨4, 0⟩, 2 ^ 61 + 8⟩⟩

/-- The element operations of `E` with `f` in the place of the copy constructor. -/
def ElemOps.withCopy (E : ElemOps T) (f : T → T) : ElemOps T :=
  ⟨E.sizeOf, E.sizeOf_pos, E.sizeOf_lt, E.dflt, f, E.move, E.assign⟩

/-- Append the values of a list by `push_back`, in order, and count the calls after which
`capacity()` differs from what it was before the call. -/
def push_all_count (E : ElemOps T) (h : Heap T) (v : Vector) :
    List T → Option (Vector × Heap T × Nat)
  | [] => some (v, h, 0)
  | x :: xs =>
    match Vector.push_back E h v x with
    | some (v1, h1) =>
      match push_all_count E h1 v1 xs with
      | some (v2, h2, k) => some (v2, h2, if v1.capacity = v.capacity then k else k + 1)
      | none => none
    | none => none

/-- The statement `self[i] = x`: `operator[](i)` gives the object `data[i]`, to which `x` is
assigned. -/
def Vector.assign_index (E : ElemOps T) (h : Heap T) (self : Vector) (i : Nat) (x : T) :
    Option (Heap T) :=
  match RawMemory.index h self.data i with
  | some old => h.store (self.data.buf.add i) (some (E.assign old x))
  | none => none

/-! ## Exceptions

The operations above are the runs in which nothing throws.  For the exception guarantees the
two throwing operations are made explicit: `operator new` may throw `std::bad_alloc`, and
the copy constructor of `T` may throw. -/

/-- Failure injection: which calls of `operator new` succeed, by byte count, and the copy
constructor of `T` as a function that may throw (`none`). -/
structure Faults (T : Type) where
  new_ok : Nat → Bool
  copy : T → Option T

/-- How a call that may throw ends: it returns `a`, or an exception leaves it with `b`;
each with the heap of that moment. -/
inductive Outcome (α β T : Type) where
  | returned (a : α) (h : Heap T)
  | thrown (b : β) (h : Heap T)
  deriving DecidableEq

/-- The static `RawMemory::Allocate(n)` when `operator new` may throw: a failed call leaves
the heap as it is. -/
def RawMemory.Allocate_throwing (F : Faults T) (E : ElemOps T) (h : Heap T) (n : Nat) :
    Outcome Ptr Unit T :=
  if F.new_ok (n * E.sizeOf % SIZE_MOD) then
    Outcome.returned (RawMemory.Allocate E h n).1 (RawMemory.Allocate E h n).2
  else Outcome.thrown () h

/-- The call `std::uninitialized_copy_n(first, count, d_first)` when the copy constructor
may throw: `k` objects have been constructed from `d_begin` on; if a copy throws, these are
destroyed and the exception is rethrown. -/
def uninitialized_copy_n_throwing (F : Faults T) (d_begin : Ptr) (h : Heap T) (first : Ptr)
    (count : Nat) (d_first : Ptr) (k : Nat) : Option (Outcome Unit Unit T) :=
  match count with
  | 0 => some (Outcome.returned () h)
  | n + 1 =>
    match h.load first with
    | some x =>
      match F.copy x with
      | some y =>
        match construct_at h d_first y with
        | some h1 =>
          uninitialized_copy_n_throwing F d_begin h1 (first.add 1) n (d_first.add 1) (k + 1)
        | none => none
      | none =>
        match destroy_n h d_begin k with
        | some h1 => some (Outcome.thrown () h1)
        | none => none
    | none => none

/-- The copy constructor `Vector(const Vector& other)` when allocation and element copies
may throw.  If `data(other.sz)` throws nothing has been built; if the body throws, the
member `data` is destroyed, which releases the block. -/
def Vector.ctor_copy_throwing (F : Faults T) (E : ElemOps T) (h : Heap T) (other : Vector) :
    Option (Outcome Vector Unit T) :=
  match RawMemory.Allocate_throwing F E h other.sz with
  | Outcome.thrown _ h0 => some (Outcome.thrown () h0)
  | Outcome.returned buf h0 =>
    match uninitialized_copy_n_throwing F buf h0 other.data.buf other.sz buf 0 with
    | some (Outcome.returned _ h1) => some (Outcome.returned ⟨other.sz, ⟨buf, other.sz⟩⟩ h1)
    | some (Outcome.thrown _ h1) =>
      match RawMemory.dtor h1 ⟨buf, other.sz⟩ with
      | some h2 => some (Outcome.thrown () h2)
      | none => none
    | none => none

/-- Copy assignment `operator=(const Vector& other)` when allocation and element copies may
throw.  The outcome carries the fields of `*this`: an exception leaves them as they are,
because `swap` and `sz = other.sz` come after everything that can throw. -/
def Vector.assign_copy_throwing (F : Faults T) (E : ElemOps T) (h : Heap T)
    (self other : Vector) : Option (Outcome Vector Vector T) :=
  if other.sz > self.data.cp then
    match Vector.ctor_copy_throwing F E h other with
    | some (Outcome.returned tmp h1) =>
      let s := Vector.swap self tmp
      match Vector.dtor h1 s.2 with
      | some h2 => some (Outcome.returned s.1 h2)
      | none => none
    | some (Outcome.thrown _ h1) => some (Outcome.thrown self h1)
    | none => none
  else
    match Vector.assign_loop E self other (min self.sz other.sz) 0 h with
    | some h1 =>
      if self.sz < other.sz then
        match uninitialized_copy_n_throwing F (self.data.buf.add self.sz) h1
            (other.data.buf.add self.sz) (other.sz - self.sz) (self.data.buf.add self.sz) 0 with
        | some (Outcome.returned _ h2) => some (Outcome.returned ⟨other.sz, self.data⟩ h2)
        | some (Outcome.thrown _ h2) => some (Outcome.thrown self h2)
        | none => none
      else if self.sz > other.sz then
        match destroy_n h1 (self.data.buf.add other.sz) (self.sz - other.sz) with
        | some h2 => some (Outcome.returned ⟨other.sz, self.data⟩ h2)
        | none => none
      else some (Outcome.returned ⟨other.sz, self.data⟩ h1)
    | none => none

/-- Faults of a run with no memory left: every `operator new` throws. -/
def noMemory : Faults Nat := ⟨fun _ => false, fun x => some x⟩

/-- Faults of a run in which copying the value 12 throws. -/
def failOn12 : Faults Nat := ⟨fun _ => true, fun x => if x = 12 then none else some x⟩

/-- The faults of a run in which nothing throws and elements are copied by `E`. -/
def Faults.none (E : ElemOps T) : Faults T := ⟨fun _ => true, fun x => some (E.copy x)⟩

/-! ## Lemmas: the heap and the standard algorithms -/

theorem Heap.block?_pos {h : Heap T} {a : Nat} {b : Block T} (hb : h.block? a = some b) :
    0 < a ∧ a ≤ h.blocks.length := by
  cases a with
  | zero => simp [Heap.block?] at hb
  | succ a =>
    simp only [Heap.block?] at hb
    refine ⟨Nat.succ_pos _, ?_⟩
    by_contra hc
    have : h.blocks[a]? = none := List.getElem?_eq_none (by omega)
    simp [this] at hb

theorem Heap.block?_getElem? {h : Heap T} {a : Nat} {b : Block T} (hb : h.block? (a + 1) = some b) :
    h.blocks[a]? = some (some b) := by
  simp only [Heap.block?] at hb
  split at hb <;> simp_all

theorem Heap.block?_setBlock_same {h : Heap T} {a : Nat} {b : Block T} (hb : h.block? a = some b)
    (x : Option (Block T)) : (h.setBlock a x).block? a = x := by
  have hp := Heap.block?_pos hb
  cases a with
  | zero => omega
  | succ a =>
    have hl : a < h.blocks.length := by omega
    simp only [Heap.setBlock, Heap.block?, List.getElem?_set_self hl]
    cases x <;> rfl

theorem Heap.block?_setBlock_ne (h : Heap T) {a c : Nat} (hne : c ≠ a) (x : Option (Block T)) :
    (h.setBlock a x).block? c = h.block? c := by
  cases a with
  | zero => rfl
  | succ a =>
    cases c with
    | zero => rfl
    | succ c =>
      have : a ≠ c := by omega
      simp only [Heap.setBlock, Heap.block?, List.getElem?_set_ne this]

theorem Heap.setBlock_setBlock (h : Heap T) (a : Nat) (x y : Option (Block T)) :
    (h.setBlock a x).setBlock a y = h.setBlock a y := by
  cases a with
  | zero => rfl
  | succ a => simp [Heap.setBlock]

theorem Heap.setBlock_self {h : Heap T} {a : Nat} {b : Block T} (hb : h.block? a = some b) :
    h.setBlock a (some b) = h := by
  cases a with
  | zero => rfl
  | succ a =>
    have := Heap.block?_getElem? hb
    cases h with
    | mk bl =>
      simp only [Heap.setBlock, Heap.mk.injEq]
      simp only at this
      apply List.ext_getElem?
      intro i
      rw [List.getElem?_set]
      split
      · subst_vars
        rw [this]
        have hl : i < bl.length := by
          by_contra hc
          rw [List.getElem?_eq_none (by omega)] at this
          cases this
        simp [hl]
      · rfl

theorem block?_operator_new_ne (E : ElemOps T) (h : Heap T) (bytes : Nat) {c : Nat}
    (hc : c ≠ h.blocks.length + 1) : (operator_new E h bytes).2.block? c = h.block? c := by
  cases c with
  | zero => rfl
  | succ c =>
    have hne : c ≠ h.blocks.length := by omega
    simp only [operator_new, Heap.block?]
    rcases Nat.lt_or_gt_of_ne hne with hlt | hgt
    · rw [List.getElem?_append_left hlt]
    · rw [List.getElem?_eq_none (by simp; omega), List.getElem?_eq_none (by omega)]

theorem block?_operator_new_fresh (E : ElemOps T) (h : Heap T) (bytes : Nat) :
    (operator_new E h bytes).2.block? (h.blocks.length + 1)
      = some (List.replicate (bytes / E.sizeOf) none) := by
  simp [operator_new, Heap.block?]

theorem block?_operator_new_old (E : ElemOps T) (h : Heap T) (bytes : Nat) {c : Nat} {b : Block T}
    (hb : h.block? c = some b) : (operator_new E h bytes).2.block? c = some b := by
  rw [block?_operator_new_ne E h bytes (by have := Heap.block?_pos hb; omega), hb]

theorem Heap.store_eq {h : Heap T} {p : Ptr} {b : Block T} (hb : h.block? p.base = some b)
    (hi : p.off < b.length) (s : Option T) :
    h.store p s = some (h.setBlock p.base (some (b.set p.off s))) := by
  simp [Heap.store, hb, hi]

theorem Heap.load_eq {h : Heap T} {p : Ptr} {b : Block T} {x : T} (hb : h.block? p.base = some b)
    (hx : b[p.off]? = some (some x)) : h.load p = some x := by
  simp [Heap.load, Heap.slot?, hb, hx]

theorem uninitialized_value_construct_n_spec (E : ElemOps T) (n : Nat) :
    ∀ (h : Heap T) (p : Ptr) (b : Block T), h.block? p.base = some b → p.off + n ≤ b.length →
      ∃ b1, uninitialized_value_construct_n E h p n = some (h.setBlock p.base (some b1)) ∧
        b1.length = b.length ∧
        ∀ j, b1[j]? = if p.off ≤ j ∧ j < p.off + n then some (some E.dflt) else b[j]? := by
  induction n with
  | zero =>
    intro h p b hb _
    refine ⟨b, ?_, rfl, ?_⟩
    · rw [Heap.setBlock_self hb]; rfl
    · intro j
      rw [if_neg (by omega)]
  | succ n ih =>
    intro h p b hb hlen
    have hs := Heap.store_eq hb (show p.off < b.length by omega) (some E.dflt)
    obtain ⟨b1, h1, h2, h3⟩ := ih (h.setBlock p.base (some (b.set p.off (some E.dflt)))) (p.add 1)
      (b.set p.off (some E.dflt)) (Heap.block?_setBlock_same hb _)
      (by simp only [Ptr.add, List.length_set]; omega)
    refine ⟨b1, ?_, ?_, ?_⟩
    · simp only [uninitialized_value_construct_n, construct_at, hs, h1]
      simp only [Ptr.add, Heap.setBlock_setBlock]
    · simpa using h2
    · intro j
      rw [h3 j]
      simp only [Ptr.add, List.getElem?_set]
      by_cases hj : p.off = j
      · subst hj
        simp
        omega
      · simp only [hj, if_false]
        by_cases hj2 : p.off ≤ j ∧ j < p.off + (n + 1)
        · rw [if_pos hj2, if_pos (by omega)]
        · rw [if_neg hj2, if_neg (by omega)]

theorem destroy_n_spec (n : Nat) :
    ∀ (h : Heap T) (p : Ptr) (b : Block T), h.block? p.base = some b → p.off + n ≤ b.length →
      (∀ j, p.off ≤ j → j < p.off + n → ∃ x, b[j]? = some (some x)) →
      ∃ b1, destroy_n h p n = some (h.setBlock p.base (some b1)) ∧
        b1.length = b.length ∧
        ∀ j, b1[j]? = if p.off ≤ j ∧ j < p.off + n then some none else b[j]? := by
  induction n with
  | zero =>
    intro h p b hb _ _
    refine ⟨b, ?_, rfl, ?_⟩
    · rw [Heap.setBlock_self hb]; rfl
    · intro j
      rw [if_neg (by omega)]
  | succ n ih =>
    intro h p b hb hlen hlive
    obtain ⟨x, hx⟩ := hlive p.off (Nat.le_refl _) (by omega)
    have hl := Heap.load_eq hb hx
    have hs := Heap.store_eq hb (show p.off < b.length by omega) none
    obtain ⟨b1, h1, h2, h3⟩ := ih (h.setBlock p.base (some (b.set p.off none))) (p.add 1)
      (b.set p.off none) (Heap.block?_setBlock_same hb _)
      (by simp only [Ptr.add, List.length_set]; omega)
      (by
        intro j hj1 hj2
        simp only [Ptr.add] at hj1 hj2
        obtain ⟨y, hy⟩ := hlive j (by omega) (by omega)
        exact ⟨y, by rw [List.getElem?_set_ne (by omega), hy]⟩)
    refine ⟨b1, ?_, ?_, ?_⟩
    · simp only [destroy_n, destroy_at, hl, hs, h1]
      simp only [Ptr.add, Heap.setBlock_setBlock]
    · simpa using h2
    · intro j
      rw [h3 j]
      simp only [Ptr.add, List.getElem?_set]
      by_cases hj : p.off = j
      · subst hj
        simp
        omega
      · simp only [hj, if_false]
        by_cases hj2 : p.off ≤ j ∧ j < p.off + (n + 1)
        · rw [if_pos hj2, if_pos (by omega)]
        · rw [if_neg hj2, if_neg (by omega)]

theorem uninitialized_construct_n_spec (mk : T → T) (n : Nat) :
    ∀ (h : Heap T) (s d : Ptr) (bs bd : Block T), h.block? s.base = some bs →
      h.block? d.base = some bd → s.base ≠ d.base →
      (∀ j, j < n → ∃ x, bs[s.off + j]? = some (some x)) → d.off + n ≤ bd.length →
      ∃ b1, uninitialized_construct_n mk h s n d = some (h.setBlock d.base (some b1)) ∧
        b1.length = bd.length ∧
        (∀ j x, j < n → bs[s.off + j]? = some (some x) → b1[d.off + j]? = some (some (mk x))) ∧
        (∀ j, ¬ (d.off ≤ j ∧ j < d.off + n) → b1[j]? = bd[j]?) := by
  induction n with
  | zero =>
    intro h s d bs bd _ hd _ _ _
    refine ⟨bd, ?_, rfl, ?_, ?_⟩
    · rw [Heap.setBlock_self hd]; rfl
    · intro j x hj
      omega
    · intro j _
      rfl
  | succ n ih =>
    intro h s d bs bd hs hd hne hlive hlen
    obtain ⟨x, hx⟩ := hlive 0 (Nat.succ_pos _)
    have hl := Heap.load_eq hs (by simpa using hx)
    have hst := Heap.store_eq hd (show d.off < bd.length by omega) (some (mk x))
    obtain ⟨b1, h1, h2, h3, h4⟩ := ih (h.setBlock d.base (some (bd.set d.off (some (mk x)))))
      (s.add 1) (d.add 1) bs (bd.set d.off (some (mk x)))
      (by rw [Ptr.add, Heap.block?_setBlock_ne h hne, hs])
      (Heap.block?_setBlock_same hd _) hne
      (by
        intro j hj
        obtain ⟨y, hy⟩ := hlive (j + 1) (by omega)
        exact ⟨y, by simpa only [Ptr.add, Nat.add_assoc, Nat.add_comm 1 j] using hy⟩)
      (by simp only [Ptr.add, List.length_set]; omega)
    refine ⟨b1, ?_, ?_, ?_, ?_⟩
    · simp only [uninitialized_construct_n, construct_at, hl, hst, h1]
      simp only [Ptr.add, Heap.setBlock_setBlock]
    · simpa using h2
    · intro j y hj hy
      cases j with
      | zero =>
        have hxy : x = y := by
          have := hx.symm.trans hy
          simpa using this
        subst hxy
        simp only [Nat.add_zero]
        rw [h4 d.off (by simp only [Ptr.add]; omega)]
        rw [List.getElem?_set_self (by omega)]
      | succ j =>
        have := h3 j y (by omega) (by simpa only [Ptr.add, Nat.add_assoc, Nat.add_comm 1 j] using hy)
        simpa only [Ptr.add, Nat.add_assoc, Nat.add_comm 1 j] using this
    · intro j hj
      rw [h4 j (by simp only [Ptr.add]; omega), List.getElem?_set_ne (by omega)]

/-! ## Lemmas: well-formed vectors -/

theorem live_iff (b : Block T) (i : Nat) :
    (b.getD i none).isSome = true ↔ ∃ x, b[i]? = some (some x) := by
  rw [List.getD_eq_getElem?_getD]
  cases hb : b[i]? with
  | none => simp
  | some s => cases s <;> simp

/-- A well-formed vector either owns no block (null, empty) or owns a live block. -/
theorem Vector.WF.cases {E : ElemOps T} {h : Heap T} {v : Vector} (hw : v.WF E h) :
    (v.sz = 0 ∧ v.data.cp = 0 ∧ v.data.buf = nullptr) ∨
    ∃ b, h.block? v.data.buf.base = some b ∧ b.length = v.data.cp ∧
      ∀ i, i < v.sz → ∃ x, b[i]? = some (some x) := by
  obtain ⟨h1, _, h3, h4⟩ := hw
  cases hb : h.block? v.data.buf.base with
  | none =>
    rw [hb] at h4
    left
    refine ⟨by omega, h4.2, ?_⟩
    cases hv : v.data.buf with
    | mk base off =>
      rw [hv] at h3 h4
      simp only at h3 h4
      rw [h3, h4.1]
      rfl
  | some b =>
    rw [hb] at h4
    right
    exact ⟨b, rfl, h4.1, fun i hi => (live_iff b i).1 (h4.2 i hi)⟩

theorem Vector.WF.intro {E : ElemOps T} {h : Heap T} {v : Vector} {b : Block T}
    (h1 : v.sz ≤ v.data.cp) (h2 : v.data.cp * E.sizeOf < SIZE_MOD) (h3 : v.data.buf.off = 0)
    (hb : h.block? v.data.buf.base = some b) (hl : b.length = v.data.cp)
    (hlive : ∀ i, i < v.sz → ∃ x, b[i]? = some (some x)) : v.WF E h := by
  refine ⟨h1, h2, h3, ?_⟩
  rw [hb]
  exact ⟨hl, fun i hi => (live_iff b i).2 (hlive i hi)⟩

theorem Vector.WF.frame {E : ElemOps T} {h h1 : Heap T} {v : Vector} (hw : v.WF E h)
    (hb : h1.block? v.data.buf.base = h.block? v.data.buf.base) : v.WF E h1 := by
  unfold Vector.WF at hw ⊢
  rw [hb]
  exact hw

theorem Vector.index_frame {h h1 : Heap T} {v : Vector} (i : Nat)
    (hb : h1.block? v.data.buf.base = h.block? v.data.buf.base) :
    Vector.index h1 v i = Vector.index h v i := by
  simp only [Vector.index, RawMemory.index, Heap.load, Heap.slot?, Ptr.add, hb]

theorem Vector.index_eq {h : Heap T} {v : Vector} {b : Block T} {i : Nat} {x : T}
    (hb : h.block? v.data.buf.base = some b) (ho : v.data.buf.off = 0)
    (hx : b[i]? = some (some x)) : Vector.index h v i = some x := by
  simp only [Vector.index, RawMemory.index]
  exact Heap.load_eq (by simpa [Ptr.add] using hb) (by simpa [Ptr.add, ho] using hx)

theorem RawMemory.ctor_n_fst (E : ElemOps T) (h : Heap T) (n : Nat) :
    (RawMemory.ctor_n E h n).1 = ⟨⟨h.blocks.length + 1, 0⟩, n⟩ := rfl

theorem RawMemory.ctor_n_fresh (E : ElemOps T) (h : Heap T) {n : Nat}
    (hn : n * E.sizeOf < SIZE_MOD) :
    (RawMemory.ctor_n E h n).2.block? (h.blocks.length + 1) = some (List.replicate n none) := by
  simp only [RawMemory.ctor_n, RawMemory.Allocate]
  rw [block?_operator_new_fresh, Nat.mod_eq_of_lt hn, Nat.mul_div_cancel _ E.sizeOf_pos]

theorem RawMemory.ctor_n_ne (E : ElemOps T) (h : Heap T) (n : Nat) {c : Nat}
    (hc : c ≠ h.blocks.length + 1) : (RawMemory.ctor_n E h n).2.block? c = h.block? c :=
  block?_operator_new_ne E h _ hc

/-- An address that is null or owns a live block is not the address of the next block. -/
theorem Vector.WF.ne_fresh {E : ElemOps T} {h : Heap T} {v : Vector} (hw : v.WF E h) :
    v.data.buf.base ≠ h.blocks.length + 1 := by
  rcases hw.cases with ⟨_, _, h3⟩ | ⟨b, hb, _⟩
  · rw [h3]; simp [nullptr]
  · have := Heap.block?_pos hb
    omega

/-! ## Lemmas: the operations of Vector -/

/-- The copy constructor, for any element operations. -/
theorem ctor_copy_spec (E : ElemOps T) (h : Heap T) (other : Vector) (hw : other.WF E h) :
    ∃ v h1, Vector.ctor_copy E h other = some (v, h1) ∧
      v.size = other.size ∧ v.capacity = other.size ∧
      (∀ i, i < other.size → ∃ x, Vector.index h other i = some x ∧
        Vector.index h1 v i = some (E.copy x) ∧ Vector.index h1 other i = some x) ∧
      h1.block? other.data.buf.base = h.block? other.data.buf.base ∧
      other.WF E h1 ∧ v.WF E h1 ∧ v.data.buf.base = h.blocks.length + 1 ∧
      (∀ c, c ≠ h.blocks.length + 1 → h1.block? c = h.block? c) := by
  have hsz : other.sz * E.sizeOf < SIZE_MOD :=
    Nat.lt_of_le_of_lt (Nat.mul_le_mul_right _ hw.1) hw.2.1
  have hfresh := RawMemory.ctor_n_fresh E h hsz
  have hne := hw.ne_fresh
  have hold := RawMemory.ctor_n_ne E h other.sz hne
  rcases hw.cases with ⟨h1, h2, h3⟩ | ⟨b, hb, hbl, hlive⟩
  · refine ⟨⟨0, ⟨⟨h.blocks.length + 1, 0⟩, 0⟩⟩, (RawMemory.ctor_n E h 0).2, ?_, ?_, ?_, ?_, ?_, ?_, ?_, rfl,
      fun c hc => RawMemory.ctor_n_ne E h 0 hc⟩
    · simp [Vector.ctor_copy, h1, uninitialized_copy_n, uninitialized_construct_n,
        RawMemory.ctor_n_fst]
    · simp [Vector.size, h1]
    · simp [Vector.size, Vector.capacity, h1]
    · intro i hi
      simp only [Vector.size, h1] at hi
      omega
    · rw [h1] at hold; exact hold
    · rw [h1] at hold; exact hw.frame hold
    · rw [h1] at hfresh
      exact Vector.WF.intro (Nat.le_refl _) (by simp [SIZE_MOD]) rfl hfresh rfl
        (fun i hi => by simp at hi)
  · have hsrc : (RawMemory.ctor_n E h other.sz).2.block? other.data.buf.base = some b := by
      rw [hold, hb]
    obtain ⟨b1, e1, e2, e3, _⟩ := uninitialized_construct_n_spec E.copy other.sz
      (RawMemory.ctor_n E h other.sz).2 other.data.buf ⟨h.blocks.length + 1, 0⟩ b _ hsrc hfresh
      hne (by
        intro j hj
        rw [hw.2.2.1]
        simpa using hlive j hj) (by simp)
    have hnew : ((RawMemory.ctor_n E h other.sz).2.setBlock (h.blocks.length + 1)
        (some b1)).block? (h.blocks.length + 1) = some b1 := Heap.block?_setBlock_same hfresh _
    have hkeep : ((RawMemory.ctor_n E h other.sz).2.setBlock (h.blocks.length + 1)
        (some b1)).block? other.data.buf.base = h.block? other.data.buf.base := by
      rw [Heap.block?_setBlock_ne _ hne, hold]
    refine ⟨⟨other.sz, ⟨⟨h.blocks.length + 1, 0⟩, other.sz⟩⟩, _, ?_, rfl, rfl, ?_, hkeep,
      hw.frame hkeep, ?_, rfl, fun c hc => by
        rw [Heap.block?_setBlock_ne _ hc]
        exact RawMemory.ctor_n_ne E h other.sz hc⟩
    · simp only [Vector.ctor_copy, uninitialized_copy_n, RawMemory.ctor_n_fst, e1]
    · intro i hi
      obtain ⟨x, hx⟩ := hlive i hi
      refine ⟨x, Vector.index_eq hb hw.2.2.1 hx, ?_, ?_⟩
      · have := e3 i x hi (by rw [hw.2.2.1]; simpa using hx)
        exact Vector.index_eq hnew rfl (by simpa using this)
      · rw [Vector.index_frame i hkeep]
        exact Vector.index_eq hb hw.2.2.1 hx
    · refine Vector.WF.intro (Nat.le_refl _) hsz rfl hnew (by simpa using e2) ?_
      intro i hi
      obtain ⟨x, hx⟩ := hlive i hi
      have := e3 i x hi (by rw [hw.2.2.1]; simpa using hx)
      exact ⟨E.copy x, by simpa using this⟩

theorem ctor_copy_correct (E : ElemOps T) (h : Heap T) (other : Vector)
    (hcopy : ∀ x, E.copy x = x) (hw : other.WF E h) :
    ∃ v h1, Vector.ctor_copy E h other = some (v, h1) ∧
      v.size = other.size ∧ v.capacity = other.size ∧
      (∀ i, i < other.size → ∃ x, Vector.index h other i = some x ∧
        Vector.index h1 v i = some x ∧ Vector.index h1 other i = some x) ∧
      h1.block? other.data.buf.base = h.block? other.data.buf.base ∧
      other.WF E h1 ∧ v.WF E h1 ∧ v.data.buf.base = h.blocks.length + 1 ∧
      (∀ c, c ≠ h.blocks.length + 1 → h1.block? c = h.block? c) := by
  obtain ⟨v, h1, e1, e2, e3, e4, e5⟩ := ctor_copy_spec E h other hw
  refine ⟨v, h1, e1, e2, e3, ?_, e5⟩
  intro i hi
  obtain ⟨x, x1, x2, x3⟩ := e4 i hi
  rw [hcopy] at x2
  exact ⟨x, x1, x2, x3⟩

theorem operator_delete_eq {h : Heap T} {p : Ptr} {b : Block T} (hb : h.block? p.base = some b)
    (ho : p.off = 0) : operator_delete h p = some (h.setBlock p.base none) := by
  have hp := Heap.block?_pos hb
  have hne : p ≠ nullptr := by
    intro hc
    rw [hc] at hp
    simp [nullptr] at hp
  simp [operator_delete, hne, ho, hb]

theorem Vector.index_some {E : ElemOps T} {h : Heap T} {v : Vector} (hw : v.WF E h) {i : Nat}
    (hi : i < v.sz) : ∃ x, Vector.index h v i = some x := by
  rcases hw.cases with ⟨h1, _, _⟩ | ⟨b, hb, _, hlive⟩
  · omega
  · obtain ⟨x, hx⟩ := hlive i hi
    exact ⟨x, Vector.index_eq hb hw.2.2.1 hx⟩

theorem Vector.index_block {h : Heap T} {v : Vector} {b : Block T} {i : Nat} {x : T}
    (hb : h.block? v.data.buf.base = some b) (ho : v.data.buf.off = 0)
    (hx : Vector.index h v i = some x) : b[i]? = some (some x) := by
  simp only [Vector.index, RawMemory.index, Heap.load, Heap.slot?, Ptr.add, hb, ho,
    Nat.zero_add] at hx
  split at hx
  · rename_i y hy
    rw [hy]
    simpa using hx
  · cases hx

/-- The growing branch of `reserve`: the vector moves into a fresh block of `n` slots and
the old block is released. -/
theorem reserve_grow (E : ElemOps T) (h : Heap T) (v : Vector) (n : Nat) (hw : v.WF E h)
    (hn : v.data.cp < n) (hsz : n * E.sizeOf < SIZE_MOD) :
    ∃ h1 b1, Vector.reserve E h v n = some (⟨v.sz, ⟨⟨h.blocks.length + 1, 0⟩, n⟩⟩, h1) ∧
      h1.block? (h.blocks.length + 1) = some b1 ∧ b1.length = n ∧
      (∀ i x, i < v.sz → Vector.index h v i = some x → b1[i]? = some (some (E.move x))) ∧
      (∀ i, v.sz ≤ i → i < n → b1[i]? = some none) ∧
      (∀ c, c ≠ h.blocks.length + 1 → c ≠ v.data.buf.base → h1.block? c = h.block? c) := by
  have hfresh := RawMemory.ctor_n_fresh E h hsz
  have hne := hw.ne_fresh
  have hold := RawMemory.ctor_n_ne E h n hne
  rcases hw.cases with ⟨h1, h2, h3⟩ | ⟨b, hb, hbl, hlive⟩
  · refine ⟨(RawMemory.ctor_n E h n).2, List.replicate n none, ?_, hfresh, by simp, ?_, ?_, ?_⟩
    · simp [Vector.reserve, hn, h1, h3, uninitialized_move_n, uninitialized_construct_n,
        destroy_n, RawMemory.Swap, RawMemory.dtor, RawMemory.Deallocate, operator_delete,
        RawMemory.ctor_n_fst]
    · intro i x hi
      omega
    · intro i _ hi
      simp [hi]
    · intro c hc _
      exact RawMemory.ctor_n_ne E h n hc
  · have hsrc : (RawMemory.ctor_n E h n).2.block? v.data.buf.base = some b := by
      rw [hold, hb]
    obtain ⟨b1, e1, e2, e3, e4⟩ := uninitialized_construct_n_spec E.move v.sz
      (RawMemory.ctor_n E h n).2 v.data.buf ⟨h.blocks.length + 1, 0⟩ b _ hsrc hfresh
      hne (by
        intro j hj
        rw [hw.2.2.1]
        simpa using hlive j hj) (by simp; have := hw.1; omega)
    have hsrc1 : ((RawMemory.ctor_n E h n).2.setBlock (h.blocks.length + 1)
        (some b1)).block? v.data.buf.base = some b := by
      rw [Heap.block?_setBlock_ne _ hne, hsrc]
    obtain ⟨b2, d1, _, _⟩ := destroy_n_spec v.sz _ v.data.buf b hsrc1
      (by rw [hw.2.2.1, hbl]; have := hw.1; omega)
      (by
        intro j _ hj
        rw [hw.2.2.1] at hj
        exact hlive j (by omega))
    have hsrc2 := Heap.block?_setBlock_same hsrc1 (some b2)
    have hdel := operator_delete_eq hsrc2 hw.2.2.1
    refine ⟨(((RawMemory.ctor_n E h n).2.setBlock (h.blocks.length + 1) (some b1)).setBlock
      v.data.buf.base (some b2)).setBlock v.data.buf.base none, b1, ?_, ?_, by simpa using e2,
      ?_, ?_, ?_⟩
    · simp only [Vector.reserve, hn, if_true, gt_iff_lt, uninitialized_move_n,
        RawMemory.ctor_n_fst, e1, d1, RawMemory.Swap, RawMemory.dtor, RawMemory.Deallocate,
        hdel]
    · rw [Heap.block?_setBlock_ne _ hne.symm, Heap.block?_setBlock_ne _ hne.symm]
      exact Heap.block?_setBlock_same hfresh _
    · intro i x hi hx
      have := e3 i x hi (by rw [hw.2.2.1]; simpa using Vector.index_block hb hw.2.2.1 hx)
      simpa using this
    · intro i hi1 hi2
      rw [e4 i (by simp; omega)]
      simp [hi2]
    · intro c hc1 hc2
      rw [Heap.block?_setBlock_ne _ hc2, Heap.block?_setBlock_ne _ hc2,
        Heap.block?_setBlock_ne _ hc1]
      exact RawMemory.ctor_n_ne E h n hc1

theorem reserve_spec (E : ElemOps T) (h : Heap T) (v : Vector) (n : Nat) (hw : v.WF E h)
    (hsz : n * E.sizeOf < SIZE_MOD) :
    ∃ v1 h1, Vector.reserve E h v n = some (v1, h1) ∧ v1.sz = v.sz ∧
      v1.data.cp = max v.data.cp n ∧ v1.WF E h1 ∧
      (n ≤ v.data.cp → v1 = v ∧ h1 = h) ∧
      (∀ i x, i < v.sz → Vector.index h v i = some x →
        Vector.index h1 v1 i = some (if v.data.cp < n then E.move x else x)) ∧
      (∀ c, c ≠ h.blocks.length + 1 → c ≠ v.data.buf.base → h1.block? c = h.block? c) ∧
      (v1.data.buf.base = v.data.buf.base ∨ v1.data.buf.base = h.blocks.length + 1) := by
  by_cases hn : v.data.cp < n
  · obtain ⟨h1, b1, e1, e2, e3, e4, _, e6⟩ := reserve_grow E h v n hw hn hsz
    refine ⟨_, h1, e1, rfl, ?_, ?_, ?_, ?_, e6, Or.inr rfl⟩
    · simp only
      omega
    · refine Vector.WF.intro ?_ hsz rfl e2 e3 ?_
      · have := hw.1
        simp only
        omega
      · intro i hi
        obtain ⟨x, hx⟩ := Vector.index_some hw hi
        exact ⟨_, e4 i x hi hx⟩
    · intro hle
      omega
    · intro i x hi hx
      rw [if_pos hn]
      exact Vector.index_eq e2 rfl (e4 i x hi hx)
  · refine ⟨v, h, ?_, rfl, ?_, hw, fun _ => ⟨rfl, rfl⟩, ?_, fun _ _ _ => rfl, Or.inl rfl⟩
    · simp [Vector.reserve, hn]
    · omega
    · intro i x _ hx
      rw [if_neg hn]
      exact hx

/-- Constructing an object in the first raw slot of a vector with spare capacity. -/
theorem construct_back (E : ElemOps T) (h : Heap T) (v : Vector) (x : T) (hw : v.WF E h)
    (hlt : v.sz < v.data.cp) :
    ∃ h1, construct_at h (v.data.plus v.sz) x = some h1 ∧
      (⟨v.sz + 1, v.data⟩ : Vector).WF E h1 ∧
      Vector.index h1 ⟨v.sz + 1, v.data⟩ v.sz = some x ∧
      (∀ i, i ≠ v.sz → Vector.index h1 ⟨v.sz + 1, v.data⟩ i = Vector.index h v i) ∧
      (∀ c, c ≠ v.data.buf.base → h1.block? c = h.block? c) := by
  rcases hw.cases with ⟨h1, h2, _⟩ | ⟨b, hb, hbl, hlive⟩
  · omega
  · have ho := hw.2.2.1
    have hst := Heap.store_eq (p := v.data.plus v.sz) (b := b) hb
      (by simp only [RawMemory.plus, Ptr.add, ho]; omega) (some x)
    have hnew := Heap.block?_setBlock_same hb (some (b.set (v.data.plus v.sz).off (some x)))
    have hoff : (v.data.plus v.sz).off = v.sz := by simp [RawMemory.plus, Ptr.add, ho]
    rw [hoff] at hst hnew
    refine ⟨_, hst, ?_, ?_, ?_, ?_⟩
    · refine Vector.WF.intro (by simp only; omega) hw.2.1 ho hnew (by simpa using hbl) ?_
      intro i hi
      simp only at hi
      by_cases hiv : i = v.sz
      · subst hiv
        exact ⟨x, List.getElem?_set_self (by omega)⟩
      · obtain ⟨y, hy⟩ := hlive i (by omega)
        exact ⟨y, by rw [List.getElem?_set_ne (by omega), hy]⟩
    · exact Vector.index_eq hnew ho (List.getElem?_set_self (by omega))
    · intro i hi
      simp only [Vector.index, RawMemory.index, Heap.load, Heap.slot?, Ptr.add, ho,
        Nat.zero_add]
      have e1 : ((v.data.plus v.sz).base) = v.data.buf.base := rfl
      rw [e1, hnew, hb]
      simp only [List.getElem?_set_ne (Ne.symm hi)]
    · intro c hc
      exact Heap.block?_setBlock_ne h hc _

theorem push_back_spec (E : ElemOps T) (h : Heap T) (v : Vector) (elem : T) (hw : v.WF E h)
    (hov : v.sz = v.data.cp → max 1 (2 * v.sz) * E.sizeOf < SIZE_MOD) :
    ∃ v1 h1, Vector.push_back E h v elem = some (v1, h1) ∧ v1.sz = v.sz + 1 ∧
      v1.data.cp = (if v.sz = v.data.cp then max 1 (2 * v.sz) else v.data.cp) ∧ v1.WF E h1 ∧
      Vector.index h1 v1 v.sz = some (E.copy elem) ∧
      (∀ i x, i < v.sz → Vector.index h v i = some x →
        Vector.index h1 v1 i = some (if v.sz = v.data.cp then E.move x else x)) ∧
      (∀ c, c ≠ h.blocks.length + 1 → c ≠ v.data.buf.base → h1.block? c = h.block? c) ∧
      (v1.data.buf.base = v.data.buf.base ∨ v1.data.buf.base = h.blocks.length + 1) := by
  have hpos := E.sizeOf_pos
  by_cases hfull : v.sz = v.data.cp
  · have hb := hov hfull
    have harg : (if v.sz = 0 then 1 else v.sz * 2 % SIZE_MOD) = max 1 (2 * v.sz) := by
      by_cases h0 : v.sz = 0
      · simp [h0]
      · have h2 : 2 * v.sz ≤ max 1 (2 * v.sz) * E.sizeOf :=
          Nat.le_trans (Nat.le_max_right 1 _) (Nat.le_mul_of_pos_right _ hpos)
        rw [if_neg h0, Nat.mod_eq_of_lt (by omega)]
        omega
    obtain ⟨v1, h1, e1, e2, e3, e4, _, e6, e7, e8⟩ :=
      reserve_spec E h v (max 1 (2 * v.sz)) hw hb
    have hlt : v1.sz < v1.data.cp := by omega
    obtain ⟨h2, c1, c2, c3, c4, c5⟩ := construct_back E h1 v1 (E.copy elem) e4 hlt
    have hmod : (v1.sz + 1) % SIZE_MOD = v1.sz + 1 := by
      apply Nat.mod_eq_of_lt
      have := c2.2.1
      have h3 : v1.data.cp ≤ v1.data.cp * E.sizeOf := Nat.le_mul_of_pos_right _ hpos
      simp only at this
      omega
    have hcp : v.data.cp < max 1 (2 * v.sz) := by omega
    refine ⟨⟨v1.sz + 1, v1.data⟩, h2, ?_, by simp [e2], ?_, c2, ?_, ?_, ?_, e8⟩
    · simp only [Vector.push_back, if_pos hfull, harg, e1, c1, hmod]
    · simp only [e3, hfull, if_true]
      omega
    · rw [← e2]
      exact c3
    · intro i x hi hx
      rw [c4 i (by omega), e6 i x hi hx, if_pos hcp, if_pos hfull]
    · intro c hc1 hc2
      have hc3 : c ≠ v1.data.buf.base := by
        rcases e8 with e8 | e8 <;> rw [e8] <;> assumption
      rw [c5 c hc3, e7 c hc1 hc2]
  · have hlt : v.sz < v.data.cp := by have := hw.1; omega
    obtain ⟨h2, c1, c2, c3, c4, c5⟩ := construct_back E h v (E.copy elem) hw hlt
    have hmod : (v.sz + 1) % SIZE_MOD = v.sz + 1 := by
      apply Nat.mod_eq_of_lt
      have := hw.2.1
      have h3 : v.data.cp ≤ v.data.cp * E.sizeOf := Nat.le_mul_of_pos_right _ hpos
      omega
    refine ⟨⟨v.sz + 1, v.data⟩, h2, ?_, rfl, ?_, c2, c3, ?_, ?_, Or.inl rfl⟩
    · simp only [Vector.push_back, if_neg hfull, c1, hmod]
    · simp [hfull]
    · intro i x hi hx
      rw [c4 i (by omega), hx, if_neg hfull]
    · intro c _ hc2
      exact c5 c hc2

theorem ctor_default_WF (E : ElemOps T) (h : Heap T) : Vector.ctor_default.WF E h := by
  refine ⟨Nat.le_refl _, ?_, rfl, ?_⟩
  · simp [Vector.ctor_default, RawMemory.default, SIZE_MOD]
  · simp [Vector.ctor_default, RawMemory.default, nullptr, Heap.block?]

theorem push_all_spec (E : ElemOps T) (hcopy : ∀ x, E.copy x = x) (hmove : ∀ x, E.move x = x)
    (xs : List T) :
    ∀ (h : Heap T) (v : Vector), v.WF E h → 2 * (v.sz + xs.length) * E.sizeOf < SIZE_MOD →
      ∃ v1 h1, push_all E h v xs = some (v1, h1) ∧ v1.sz = v.sz + xs.length ∧ v1.WF E h1 ∧
        (∀ i x, i < v.sz → Vector.index h v i = some x → Vector.index h1 v1 i = some x) ∧
        (∀ i (hi : i < xs.length), Vector.index h1 v1 (v.sz + i) = some xs[i]) := by
  induction xs with
  | nil =>
    intro h v hw _
    exact ⟨v, h, rfl, rfl, hw, fun _ _ _ hx => hx, fun i hi => by simp at hi⟩
  | cons y ys ih =>
    intro h v hw hb
    simp only [List.length_cons] at hb
    have hov : v.sz = v.data.cp → max 1 (2 * v.sz) * E.sizeOf < SIZE_MOD := by
      intro _
      refine Nat.lt_of_le_of_lt (Nat.mul_le_mul_right _ ?_) hb
      omega
    obtain ⟨v1, h1, e1, e2, _, e4, e5, e6, _⟩ := push_back_spec E h v y hw hov
    obtain ⟨v2, h2, f1, f2, f3, f4, f5⟩ := ih h1 v1 e4 (by
      rw [e2]
      have : v.sz + 1 + ys.length = v.sz + (ys.length + 1) := by omega
      rw [this]
      exact hb)
    refine ⟨v2, h2, ?_, ?_, f3, ?_, ?_⟩
    · simp only [push_all, e1, f1]
    · simp only [List.length_cons]
      omega
    · intro i x hi hx
      have := e6 i x hi hx
      rw [hmove] at this
      simp only [ite_self] at this
      exact f4 i x (by omega) this
    · intro i hi
      cases i with
      | zero =>
        simp only [Nat.add_zero, List.getElem_cons_zero]
        rw [hcopy] at e5
        exact f4 v.sz y (by omega) e5
      | succ i =>
        simp only [List.length_cons] at hi
        have := f5 i (by omega)
        rw [e2] at this
        simp only [List.getElem_cons_succ]
        rw [← this]
        congr 1
        omega

theorem Vector.index_raw {h : Heap T} {v : Vector} {b : Block T} {i : Nat}
    (hb : h.block? v.data.buf.base = some b) (ho : v.data.buf.off = 0)
    (hx : b[i]? = some none) : Vector.index h v i = none := by
  simp [Vector.index, RawMemory.index, Heap.load, Heap.slot?, Ptr.add, hb, ho, hx]

theorem Vector.WF.shrink {E : ElemOps T} {h : Heap T} {v : Vector} (hw : v.WF E h) {m : Nat}
    (hm : m ≤ v.sz) : (⟨m, v.data⟩ : Vector).WF E h := by
  obtain ⟨h1, h2, h3, h4⟩ := hw
  refine ⟨by simp only; omega, h2, h3, ?_⟩
  simp only
  split
  · rename_i b hb
    rw [hb] at h4
    exact ⟨h4.1, fun i hi => h4.2 i (by omega)⟩
  · rename_i hb
    rw [hb] at h4
    exact h4

theorem assign_loop_spec (E : ElemOps T) (self other : Vector) (k : Nat) :
    ∀ (i : Nat) (h : Heap T) (bs bo : Block T),
      h.block? self.data.buf.base = some bs → h.block? other.data.buf.base = some bo →
      self.data.buf.off = 0 → other.data.buf.off = 0 →
      (∀ j, i ≤ j → j < i + k → ∃ x, bs[j]? = some (some x)) →
      (∀ j, i ≤ j → j < i + k → ∃ y, bo[j]? = some (some y)) →
      ∃ b1, Vector.assign_loop E self other k i h
          = some (h.setBlock self.data.buf.base (some b1)) ∧
        b1.length = bs.length ∧
        (∀ j x y, i ≤ j → j < i + k → bs[j]? = some (some x) → bo[j]? = some (some y) →
          b1[j]? = some (some (E.assign x y))) ∧
        (∀ j, ¬ (i ≤ j ∧ j < i + k) → b1[j]? = bs[j]?) := by
  induction k with
  | zero =>
    intro i h bs bo hs _ _ _ _ _
    refine ⟨bs, ?_, rfl, ?_, fun _ _ => rfl⟩
    · rw [Heap.setBlock_self hs]; rfl
    · intro j x y h1 h2
      omega
  | succ k ih =>
    intro i h bs bo hs ho hso hoo hls hlo
    obtain ⟨x, hx⟩ := hls i (Nat.le_refl _) (by omega)
    obtain ⟨y, hy⟩ := hlo i (Nat.le_refl _) (by omega)
    have hi : i < bs.length := by
      by_contra hc
      rw [List.getElem?_eq_none (by omega)] at hx
      cases hx
    have e1 : RawMemory.index h other.data i = some y :=
      Heap.load_eq (p := other.data.buf.add i) ho (by simpa [Ptr.add, hoo] using hy)
    have e2 : RawMemory.index h self.data i = some x :=
      Heap.load_eq (p := self.data.buf.add i) hs (by simpa [Ptr.add, hso] using hx)
    have e3 := Heap.store_eq (p := self.data.buf.add i) (b := bs) hs
      (by simpa [Ptr.add, hso] using hi) (some (E.assign x y))
    have hoff : (self.data.buf.add i).off = i := by simp [Ptr.add, hso]
    have hbase : (self.data.buf.add i).base = self.data.buf.base := rfl
    rw [hoff, hbase] at e3
    have hs1 := Heap.block?_setBlock_same hs (some (bs.set i (some (E.assign x y))))
    have key : ∃ bo1, (h.setBlock self.data.buf.base
        (some (bs.set i (some (E.assign x y))))).block? other.data.buf.base = some bo1 ∧
        ∀ j, j ≠ i → bo1[j]? = bo[j]? := by
      by_cases hsame : other.data.buf.base = self.data.buf.base
      · rw [hsame] at ho ⊢
        have hbo : bo = bs := by
          rw [hs] at ho
          exact (Option.some.inj ho).symm
        refine ⟨_, hs1, ?_⟩
        intro j hj
        rw [hbo, List.getElem?_set_ne (Ne.symm hj)]
      · refine ⟨bo, ?_, fun _ _ => rfl⟩
        rw [Heap.block?_setBlock_ne h hsame, ho]
    obtain ⟨bo1, hbo1, hbo2⟩ := key
    obtain ⟨b1, f1, f2, f3, f4⟩ := ih (i + 1) _ (bs.set i (some (E.assign x y))) bo1 hs1 hbo1
      hso hoo
      (by
        intro j hj1 hj2
        obtain ⟨z, hz⟩ := hls j (by omega) (by omega)
        exact ⟨z, by rw [List.getElem?_set_ne (by omega), hz]⟩)
      (by
        intro j hj1 hj2
        obtain ⟨z, hz⟩ := hlo j (by omega) (by omega)
        exact ⟨z, by rw [hbo2 j (by omega), hz]⟩)
    refine ⟨b1, ?_, by simpa using f2, ?_, ?_⟩
    · simp only [Vector.assign_loop, e1, e2, e3, f1, Heap.setBlock_setBlock]
    · intro j x1 y1 hj1 hj2 hx1 hy1
      by_cases hji : j = i
      · subst hji
        rw [hx] at hx1
        rw [hy] at hy1
        have hxx : x = x1 := by simpa using hx1
        have hyy : y = y1 := by simpa using hy1
        subst hxx hyy
        rw [f4 j (by omega), List.getElem?_set_self hi]
      · exact f3 j x1 y1 (by omega) (by omega)
          (by rw [List.getElem?_set_ne (Ne.symm hji), hx1])
          (by rw [hbo2 j hji, hy1])
    · intro j hj
      rw [f4 j (by omega), List.getElem?_set_ne (by omega)]

/-- The element-wise assignment loop of copy assignment, run on two well-formed vectors. -/
theorem assign_loop_vec (E : ElemOps T) (h : Heap T) (a b : Vector) (ha : a.WF E h)
    (hb : b.WF E h) {bs : Block T} (hbs : h.block? a.data.buf.base = some bs) :
    ∃ b1, Vector.assign_loop E a b (min a.sz b.sz) 0 h
        = some (h.setBlock a.data.buf.base (some b1)) ∧
      b1.length = bs.length ∧
      (∀ j x y, j < a.sz → j < b.sz → Vector.index h a j = some x →
        Vector.index h b j = some y → b1[j]? = some (some (E.assign x y))) ∧
      (∀ j, min a.sz b.sz ≤ j → b1[j]? = bs[j]?) := by
  rcases hb.cases with ⟨b1, _, _⟩ | ⟨bo, hbo, _, hboL⟩
  · refine ⟨bs, ?_, rfl, ?_, fun _ _ => rfl⟩
    · rw [b1, Nat.min_zero, Heap.setBlock_self hbs]
      rfl
    · intro j x y _ hj
      omega
  · rcases ha.cases with ⟨a1, a2, _⟩ | ⟨bs1, hbs1, _, hbsL⟩
    · refine ⟨bs, ?_, rfl, ?_, fun _ _ => rfl⟩
      · rw [a1, Nat.zero_min, Heap.setBlock_self hbs]
        rfl
      · intro j x y hj
        omega
    · have hbb : bs1 = bs := by
        rw [hbs] at hbs1
        exact (Option.some.inj hbs1).symm
      subst hbb
      obtain ⟨b1, e1, e2, e3, e4⟩ := assign_loop_spec E a b (min a.sz b.sz) 0 h bs1 bo hbs hbo
        ha.2.2.1 hb.2.2.1
        (fun j _ hj => hbsL j (by omega)) (fun j _ hj => hboL j (by omega))
      refine ⟨b1, e1, e2, ?_, ?_⟩
      · intro j x y hj1 hj2 hx hy
        exact e3 j x y (Nat.zero_le _) (by omega) (Vector.index_block hbs ha.2.2.1 hx)
          (Vector.index_block hbo hb.2.2.1 hy)
      · intro j hj
        exact e4 j (by omega)

/-- The storage-reuse branch of copy assignment, for any element operations. -/
theorem assign_copy_reuse (E : ElemOps T) (h : Heap T) (a b : Vector) (ha : a.WF E h)
    (hb : b.WF E h) (hsep : a.Separate b) (hle : b.sz ≤ a.data.cp) :
    ∃ h1, Vector.assign_copy E h a b = some (⟨b.sz, a.data⟩, h1) ∧
      (⟨b.sz, a.data⟩ : Vector).WF E h1 ∧
      (∀ i x y, i < a.sz → i < b.sz → Vector.index h a i = some x →
        Vector.index h b i = some y →
        Vector.index h1 ⟨b.sz, a.data⟩ i = some (E.assign x y)) ∧
      (∀ i y, a.sz ≤ i → i < b.sz → Vector.index h b i = some y →
        Vector.index h1 ⟨b.sz, a.data⟩ i = some (E.copy y)) ∧
      (∀ i, b.sz ≤ i → i < a.sz → Vector.index h1 ⟨b.sz, a.data⟩ i = none) ∧
      (∀ c, c ≠ a.data.buf.base → h1.block? c = h.block? c) := by
  have hnot : ¬ (b.sz > a.data.cp) := by omega
  rcases ha.cases with ⟨a1, a2, a3⟩ | ⟨bs, hbs, hbsl, hlive⟩
  · have hb0 : b.sz = 0 := by omega
    refine ⟨h, ?_, ?_, ?_, ?_, ?_, fun _ _ => rfl⟩
    · simp [Vector.assign_copy, a1, a2, hb0, Vector.assign_loop]
    · rw [hb0]
      exact ha.shrink (Nat.zero_le _)
    · intro i x y hi
      omega
    · intro i y _ hi
      omega
    · intro i _ hi
      omega
  · have hao := ha.2.2.1
    obtain ⟨b1, l1, l2, l3, l4⟩ := assign_loop_vec E h a b ha hb hbs
    have hb1 := Heap.block?_setBlock_same hbs (some b1)
    have main : ∃ b2, Vector.assign_copy E h a b
          = some (⟨b.sz, a.data⟩, h.setBlock a.data.buf.base (some b2)) ∧
        b2.length = a.data.cp ∧
        (∀ i x y, i < a.sz → i < b.sz → Vector.index h a i = some x →
          Vector.index h b i = some y → b2[i]? = some (some (E.assign x y))) ∧
        (∀ i y, a.sz ≤ i → i < b.sz → Vector.index h b i = some y →
          b2[i]? = some (some (E.copy y))) ∧
        (∀ i, b.sz ≤ i → i < a.sz → b2[i]? = some none) := by
      by_cases hlt : a.sz < b.sz
      · have hneq : a ≠ b := by
          intro hc
          rw [hc] at hlt
          omega
        have hbase : b.data.buf.base ≠ a.data.buf.base := by
          rcases hsep with hs | hs
          · exact Ne.symm hs
          · exact absurd hs hneq
        rcases hb.cases with ⟨b0, _, _⟩ | ⟨bo, hbo, _, hboL⟩
        · omega
        · have hbo1 : (h.setBlock a.data.buf.base (some b1)).block? b.data.buf.base = some bo := by
            rw [Heap.block?_setBlock_ne h hbase, hbo]
          have hboff : (b.data.buf.add a.sz).off = a.sz := by simp [Ptr.add, hb.2.2.1]
          have haoff : (a.data.buf.add a.sz).off = a.sz := by simp [Ptr.add, hao]
          obtain ⟨b2, c1, c2, c3, c4⟩ := uninitialized_construct_n_spec E.copy (b.sz - a.sz)
            (h.setBlock a.data.buf.base (some b1)) (b.data.buf.add a.sz) (a.data.buf.add a.sz)
            bo b1 hbo1 hb1 hbase
            (by
              intro j hj
              rw [hboff]
              exact hboL (a.sz + j) (by omega))
            (by rw [haoff, l2, hbsl]; omega)
          rw [hboff] at c3
          rw [haoff] at c3 c4
          refine ⟨b2, ?_, by rw [c2, l2, hbsl], ?_, ?_, ?_⟩
          · simp only [Vector.assign_copy, if_neg hnot, l1, if_pos hlt, uninitialized_copy_n, c1]
            simp only [Ptr.add, Heap.setBlock_setBlock]
          · intro i x y hi1 hi2 hx hy
            rw [c4 i (by omega)]
            exact l3 i x y hi1 hi2 hx hy
          · intro i y hi1 hi2 hy
            have := c3 (i - a.sz) y (by omega)
              (by
                have e : a.sz + (i - a.sz) = i := by omega
                rw [e]
                exact Vector.index_block hbo hb.2.2.1 hy)
            have e : a.sz + (i - a.sz) = i := by omega
            rw [e] at this
            exact this
          · intro i hi1 hi2
            omega
      · by_cases hgt : a.sz > b.sz
        · have hoff : (a.data.buf.add b.sz).off = b.sz := by simp [Ptr.add, hao]
          obtain ⟨b2, d1, d2, d3⟩ := destroy_n_spec (a.sz - b.sz)
            (h.setBlock a.data.buf.base (some b1)) (a.data.buf.add b.sz) b1 hb1
            (by rw [hoff, l2, hbsl]; have := ha.1; omega)
            (by
              intro j hj1 hj2
              rw [hoff] at hj1 hj2
              rw [l4 j (by omega)]
              exact hlive j (by omega))
          rw [hoff] at d3
          refine ⟨b2, ?_, by rw [d2, l2, hbsl], ?_, ?_, ?_⟩
          · simp only [Vector.assign_copy, if_neg hnot, l1, if_neg hlt, if_pos hgt, d1]
            simp only [Ptr.add, Heap.setBlock_setBlock]
          · intro i x y hi1 hi2 hx hy
            rw [d3 i, if_neg (by omega)]
            exact l3 i x y hi1 hi2 hx hy
          · intro i y hi1 hi2
            omega
          · intro i hi1 hi2
            rw [d3 i, if_pos (by omega)]
        · refine ⟨b1, ?_, by rw [l2, hbsl], ?_, ?_, ?_⟩
          · simp only [Vector.assign_copy, if_neg hnot, l1, if_neg hlt, if_neg hgt]
          · exact l3
          · intro i y hi1 hi2
            omega
          · intro i hi1 hi2
            omega
    obtain ⟨b2, m1, m2, m3, m4, m5⟩ := main
    have hb2 := Heap.block?_setBlock_same hbs (some b2)
    refine ⟨_, m1, ?_, ?_, ?_, ?_, ?_⟩
    · refine Vector.WF.intro hle ha.2.1 hao hb2 m2 ?_
      intro i hi
      simp only at hi
      obtain ⟨y, hy⟩ := Vector.index_some hb hi
      by_cases hia : i < a.sz
      · obtain ⟨x, hx⟩ := Vector.index_some ha hia
        exact ⟨_, m3 i x y hia hi hx hy⟩
      · exact ⟨_, m4 i y (by omega) hi hy⟩
    · intro i x y hi1 hi2 hx hy
      exact Vector.index_eq hb2 hao (m3 i x y hi1 hi2 hx hy)
    · intro i y hi1 hi2 hy
      exact Vector.index_eq hb2 hao (m4 i y hi1 hi2 hy)
    · intro i hi1 hi2
      exact Vector.index_raw hb2 hao (m5 i hi1 hi2)
    · intro c hc
      exact Heap.block?_setBlock_ne h hc _

theorem dtor_spec (E : ElemOps T) (h : Heap T) (v : Vector) (hw : v.WF E h) :
    ∃ h1, Vector.dtor h v = some h1 ∧ h1.block? v.data.buf.base = none ∧
      ∀ c, c ≠ v.data.buf.base → h1.block? c = h.block? c := by
  rcases hw.cases with ⟨h1, _, h3⟩ | ⟨b, hb, hbl, hlive⟩
  · refine ⟨h, ?_, ?_, fun _ _ => rfl⟩
    · simp [Vector.dtor, h1, h3, destroy_n, RawMemory.dtor, RawMemory.Deallocate,
        operator_delete]
    · rw [h3]
      rfl
  · obtain ⟨b2, d1, _, _⟩ := destroy_n_spec v.sz h v.data.buf b hb
      (by rw [hw.2.2.1, hbl]; have := hw.1; omega)
      (by
        intro j _ hj
        rw [hw.2.2.1] at hj
        exact hlive j (by omega))
    have hb2 := Heap.block?_setBlock_same hb (some b2)
    have hdel := operator_delete_eq hb2 hw.2.2.1
    refine ⟨(h.setBlock v.data.buf.base (some b2)).setBlock v.data.buf.base none, ?_, ?_, ?_⟩
    · simp only [Vector.dtor, d1, RawMemory.dtor, RawMemory.Deallocate, hdel]
    · exact Heap.block?_setBlock_same hb2 none
    · intro c hc
      rw [Heap.block?_setBlock_ne _ hc, Heap.block?_setBlock_ne _ hc]

/-- A vector with more elements than another one has room for owns a different block. -/
theorem base_ne_of_lt (E : ElemOps T) (h : Heap T) (a b : Vector) (ha : a.WF E h)
    (hb : b.WF E h) (hgt : a.data.cp < b.sz) : b.data.buf.base ≠ a.data.buf.base := by
  intro hc
  rcases hb.cases with ⟨b0, _, _⟩ | ⟨bo, hbo, hbol, _⟩
  · omega
  · rcases ha.cases with ⟨_, _, a3⟩ | ⟨bs, hbs, hbsl, _⟩
    · rw [hc, a3] at hbo
      simp [nullptr, Heap.block?] at hbo
    · rw [hc, hbs] at hbo
      have : bs = bo := Option.some.inj hbo
      have := hb.1
      subst_vars
      omega

/-- The replacing branch of copy assignment: a temporary copy is built, swapped in, and the
old state is destroyed. -/
theorem assign_copy_replace_spec (E : ElemOps T) (h : Heap T) (a b : Vector)
    (ha : a.WF E h) (hb : b.WF E h) (hgt : a.data.cp < b.sz) :
    ∃ a1 h1, Vector.assign_copy E h a b = some (a1, h1) ∧ a1.sz = b.sz ∧
      a1.data.cp = b.sz ∧ a1.WF E h1 ∧ b.WF E h1 ∧
      (∀ i, i < b.sz → ∃ x, Vector.index h b i = some x ∧
        Vector.index h1 a1 i = some (E.copy x) ∧ Vector.index h1 b i = some x) ∧
      h1.block? b.data.buf.base = h.block? b.data.buf.base ∧
      a1.data.buf.base = h.blocks.length + 1 ∧
      (∀ c, c ≠ h.blocks.length + 1 → c ≠ a.data.buf.base → h1.block? c = h.block? c) := by
  obtain ⟨tmp, h1, e1, e2, e3, e4, e5, e6, e7, e8, e9⟩ := ctor_copy_spec E h b hb
  have hane := ha.ne_fresh
  have ha1 : a.WF E h1 := ha.frame (e9 _ hane)
  obtain ⟨h2, d1, _, d3⟩ := dtor_spec E h1 a ha1
  have hbne := base_ne_of_lt E h a b ha hb hgt
  have htne : tmp.data.buf.base ≠ a.data.buf.base := by
    rw [e8]
    exact Ne.symm hane
  refine ⟨tmp, h2, ?_, e2, e3, e7.frame (d3 _ htne), e6.frame (d3 _ hbne), ?_, ?_, e8, ?_⟩
  · simp only [Vector.assign_copy, if_pos hgt, gt_iff_lt, e1, Vector.swap, RawMemory.Swap, d1]
  · intro i hi
    obtain ⟨x, x1, x2, x3⟩ := e4 i hi
    refine ⟨x, x1, ?_, ?_⟩
    · rw [Vector.index_frame i (d3 _ htne)]
      exact x2
    · rw [Vector.index_frame i (d3 _ hbne)]
      exact x3
  · rw [d3 _ hbne, e5]
  · intro c hc1 hc2
    rw [d3 c hc2, e9 c hc1]

theorem assign_copy_replace (E : ElemOps T) (h : Heap T) (a b : Vector)
    (hcopy : ∀ x, E.copy x = x) (ha : a.WF E h) (hb : b.WF E h) (hgt : a.data.cp < b.sz) :
    ∃ a1 h1, Vector.assign_copy E h a b = some (a1, h1) ∧ a1.sz = b.sz ∧
      a1.data.cp = b.sz ∧ a1.WF E h1 ∧ b.WF E h1 ∧
      (∀ i, i < b.sz → ∃ x, Vector.index h b i = some x ∧ Vector.index h1 a1 i = some x ∧
        Vector.index h1 b i = some x) ∧
      h1.block? b.data.buf.base = h.block? b.data.buf.base ∧
      a1.data.buf.base = h.blocks.length + 1 ∧
      (∀ c, c ≠ h.blocks.length + 1 → c ≠ a.data.buf.base → h1.block? c = h.block? c) := by
  obtain ⟨a1, h1, e1, e2, e3, e4, e5, e6, e7⟩ := assign_copy_replace_spec E h a b ha hb hgt
  refine ⟨a1, h1, e1, e2, e3, e4, e5, ?_, e7⟩
  intro i hi
  obtain ⟨x, x1, x2, x3⟩ := e6 i hi
  rw [hcopy] at x2
  exact ⟨x, x1, x2, x3⟩

theorem resize_spec (E : ElemOps T) (h : Heap T) (v : Vector) (n : Nat) (hw : v.WF E h)
    (hn : n * E.sizeOf < SIZE_MOD) :
    ∃ v1 h1, Vector.resize E h v n = some (v1, h1) ∧ v1.sz = n ∧
      v1.data.cp = max v.data.cp n ∧ v1.WF E h1 ∧
      (∀ i x, i < v.sz → i < n → Vector.index h v i = some x →
        Vector.index h1 v1 i = some (if v.data.cp < n then E.move x else x)) ∧
      (∀ i, v.sz ≤ i → i < n → Vector.index h1 v1 i = some E.dflt) ∧
      (∀ i, n ≤ i → i < v.sz → Vector.index h1 v1 i = none) ∧
      (∀ c, c ≠ h.blocks.length + 1 → c ≠ v.data.buf.base → h1.block? c = h.block? c) ∧
      (v1.data.buf.base = v.data.buf.base ∨ v1.data.buf.base = h.blocks.length + 1) := by
  obtain ⟨v1, h1, e1, e2, e3, e4, e5, e6, e7, e8⟩ := reserve_spec E h v n hw hn
  have ho := e4.2.2.1
  have hframe : ∀ (h2 : Heap T), (∀ c, c ≠ v1.data.buf.base → h2.block? c = h1.block? c) →
      ∀ c, c ≠ h.blocks.length + 1 → c ≠ v.data.buf.base → h2.block? c = h.block? c := by
    intro h2 hh c hc1 hc2
    have hc3 : c ≠ v1.data.buf.base := by
      rcases e8 with e8 | e8 <;> rw [e8] <;> assumption
    rw [hh c hc3, e7 c hc1 hc2]
  by_cases hlt : v1.sz < n
  · rcases e4.cases with ⟨_, c2, _⟩ | ⟨b, hb, hbl, hlive⟩
    · omega
    · have hoff : (v1.data.plus v1.sz).off = v1.sz := by simp [RawMemory.plus, Ptr.add, ho]
      obtain ⟨b2, u1, u2, u3⟩ := uninitialized_value_construct_n_spec E (n - v1.sz) h1
        (v1.data.plus v1.sz) b hb (by rw [hoff, hbl, e3]; omega)
      rw [hoff] at u3
      have hb2 := Heap.block?_setBlock_same hb (some b2)
      have hnew : ∀ i, v1.sz ≤ i → i < n → b2[i]? = some (some E.dflt) := by
        intro i hi1 hi2
        rw [u3 i, if_pos (by omega)]
      have hkeep : ∀ i, i < v1.sz → b2[i]? = b[i]? := by
        intro i hi
        rw [u3 i, if_neg (by omega)]
      refine ⟨⟨n, v1.data⟩, h1.setBlock v1.data.buf.base (some b2), ?_, rfl, e3, ?_, ?_, ?_, ?_,
        ?_, e8⟩
      · simp only [Vector.resize, e1, if_pos hlt, u1]
        rfl
      · refine Vector.WF.intro (by show n ≤ v1.data.cp; rw [e3]; omega) e4.2.1 ho hb2
          (by rw [u2, hbl]) ?_
        intro i hi
        by_cases hi2 : i < v1.sz
        · rw [hkeep i hi2]
          exact hlive i hi2
        · exact ⟨_, hnew i (by omega) hi⟩
      · intro i x hi1 hi2 hx
        have := Vector.index_block hb ho (e6 i x hi1 hx)
        exact Vector.index_eq hb2 ho (by rw [hkeep i (by omega)]; exact this)
      · intro i hi1 hi2
        exact Vector.index_eq hb2 ho (hnew i (by omega) hi2)
      · intro i hi1 hi2
        omega
      · exact hframe _ (fun c hc => Heap.block?_setBlock_ne h1 hc _)
  · by_cases hgt : v1.sz > n
    · rcases e4.cases with ⟨c1, _, _⟩ | ⟨b, hb, hbl, hlive⟩
      · omega
      · have hoff : (v1.data.plus n).off = n := by simp [RawMemory.plus, Ptr.add, ho]
        obtain ⟨b2, d1, d2, d3⟩ := destroy_n_spec (v1.sz - n) h1 (v1.data.plus n) b hb
          (by rw [hoff, hbl]; have := e4.1; omega)
          (by
            intro j _ hj
            rw [hoff] at hj
            exact hlive j (by omega))
        rw [hoff] at d3
        have hb2 := Heap.block?_setBlock_same hb (some b2)
        refine ⟨⟨n, v1.data⟩, h1.setBlock v1.data.buf.base (some b2), ?_, rfl, e3, ?_, ?_, ?_,
          ?_, ?_, e8⟩
        · simp only [Vector.resize, e1, if_neg hlt, if_pos hgt, d1]
          rfl
        · refine Vector.WF.intro (by have := e4.1; simp only; omega) e4.2.1 ho hb2
            (by rw [d2, hbl]) ?_
          intro i hi
          simp only at hi
          rw [d3 i, if_neg (by omega)]
          exact hlive i (by omega)
        · intro i x hi1 hi2 hx
          have := Vector.index_block hb ho (e6 i x hi1 hx)
          exact Vector.index_eq hb2 ho (by rw [d3 i, if_neg (by omega)]; exact this)
        · intro i hi1 hi2
          omega
        · intro i hi1 hi2
          exact Vector.index_raw hb2 ho (by rw [d3 i, if_pos (by omega)])
        · exact hframe _ (fun c hc => Heap.block?_setBlock_ne h1 hc _)
    · have hsz : v1.sz = n := by omega
      refine ⟨⟨n, v1.data⟩, h1, ?_, rfl, e3, ?_, ?_, ?_, ?_, hframe h1 (fun _ _ => rfl), e8⟩
      · simp only [Vector.resize, e1, if_neg hlt, if_neg hgt]
      · rw [← hsz]
        exact e4
      · intro i x hi1 hi2 hx
        exact e6 i x hi1 hx
      · intro i hi1 hi2
        omega
      · intro i hi1 hi2
        omega

theorem ctor_n_spec (E : ElemOps T) (h : Heap T) (n : Nat) (hn : n * E.sizeOf < SIZE_MOD) :
    ∃ h1, Vector.ctor_n E h n = some (⟨n, ⟨⟨h.blocks.length + 1, 0⟩, n⟩⟩, h1) ∧
      (⟨n, ⟨⟨h.blocks.length + 1, 0⟩, n⟩⟩ : Vector).WF E h1 ∧
      (∀ i, i < n → Vector.index h1 ⟨n, ⟨⟨h.blocks.length + 1, 0⟩, n⟩⟩ i = some E.dflt) ∧
      (∀ c, c ≠ h.blocks.length + 1 → h1.block? c = h.block? c) := by
  have hfresh := RawMemory.ctor_n_fresh E h hn
  obtain ⟨b1, u1, u2, u3⟩ := uninitialized_value_construct_n_spec E n (RawMemory.ctor_n E h n).2
    ⟨h.blocks.length + 1, 0⟩ (List.replicate n none) hfresh (by simp)
  have hb1 := Heap.block?_setBlock_same hfresh (some b1)
  have hlive : ∀ i, i < n → b1[i]? = some (some E.dflt) := by
    intro i hi
    rw [u3 i, if_pos (by simp only; omega)]
  refine ⟨(RawMemory.ctor_n E h n).2.setBlock (h.blocks.length + 1) (some b1), ?_, ?_, ?_, ?_⟩
  · simp only [Vector.ctor_n, RawMemory.ctor_n_fst, u1]
  · exact Vector.WF.intro (Nat.le_refl _) hn rfl hb1 (by simpa using u2)
      (fun i hi => ⟨_, hlive i hi⟩)
  · intro i hi
    exact Vector.index_eq hb1 rfl (hlive i hi)
  · intro c hc
    rw [Heap.block?_setBlock_ne _ hc]
    exact RawMemory.ctor_n_ne E h n hc

theorem push_back_move_eq (E : ElemOps T) (h : Heap T) (v : Vector) (elem : T) :
    Vector.push_back_move E h v elem = Vector.push_back (E.withCopy E.move) h v elem := rfl

theorem pop_back_spec (E : ElemOps T) (h : Heap T) (v : Vector) (hw : v.WF E h)
    (hpos : 0 < v.sz) :
    ∃ h1, Vector.pop_back h v = some (⟨v.sz - 1, v.data⟩, h1) ∧
      (⟨v.sz - 1, v.data⟩ : Vector).WF E h1 ∧
      (∀ i, i ≠ v.sz - 1 → Vector.index h1 ⟨v.sz - 1, v.data⟩ i = Vector.index h v i) ∧
      Vector.index h1 ⟨v.sz - 1, v.data⟩ (v.sz - 1) = none ∧
      (∀ c, c ≠ v.data.buf.base → h1.block? c = h.block? c) := by
  rcases hw.cases with ⟨h1, _, _⟩ | ⟨b, hb, hbl, hlive⟩
  · omega
  · have ho := hw.2.2.1
    have hle := hw.1
    have hsub : (v.data.plus v.sz).sub 1 = some ⟨v.data.buf.base, v.sz - 1⟩ := by
      simp only [RawMemory.plus, Ptr.add, Ptr.sub, ho, Nat.zero_add]
      rw [if_pos (by omega)]
    obtain ⟨x, hx⟩ := hlive (v.sz - 1) (by omega)
    have hl : h.load ⟨v.data.buf.base, v.sz - 1⟩ = some x := Heap.load_eq hb hx
    have hs := Heap.store_eq (p := ⟨v.data.buf.base, v.sz - 1⟩) hb
      (show v.sz - 1 < b.length by omega) none
    have hnew := Heap.block?_setBlock_same hb (some (b.set (v.sz - 1) none))
    have hmod : (v.sz + SIZE_MOD - 1) % SIZE_MOD = v.sz - 1 := by
      have h3 : v.data.cp ≤ v.data.cp * E.sizeOf := Nat.le_mul_of_pos_right _ E.sizeOf_pos
      have h4 := hw.2.1
      have e : v.sz + SIZE_MOD - 1 = (v.sz - 1) + SIZE_MOD := by omega
      rw [e, Nat.add_mod_right, Nat.mod_eq_of_lt (by omega)]
    refine ⟨h.setBlock v.data.buf.base (some (b.set (v.sz - 1) none)), ?_, ?_, ?_, ?_, ?_⟩
    · simp only [Vector.pop_back, hsub, destroy_at, hl, hs, hmod]
    · refine Vector.WF.intro (by simp only; omega) hw.2.1 ho hnew (by simpa using hbl) ?_
      intro i hi
      simp only at hi
      obtain ⟨y, hy⟩ := hlive i (by omega)
      exact ⟨y, by rw [List.getElem?_set_ne (by omega), hy]⟩
    · intro i hi
      simp only [Vector.index, RawMemory.index, Heap.load, Heap.slot?, Ptr.add, ho,
        Nat.zero_add, hnew, hb]
      rw [List.getElem?_set_ne (Ne.symm hi)]
    · exact Vector.index_raw hnew ho (List.getElem?_set_self (by omega))
    · intro c hc
      exact Heap.block?_setBlock_ne h hc _

/-- Counting the capacity changes does not change the run. -/
theorem push_all_count_run (E : ElemOps T) (xs : List T) :
    ∀ (h : Heap T) (v : Vector),
      (push_all_count E h v xs).map (fun r => (r.1, r.2.1)) = push_all E h v xs := by
  induction xs with
  | nil => intro h v; rfl
  | cons x xs ih =>
    intro h v
    simp only [push_all_count, push_all]
    cases hp : Vector.push_back E h v x with
    | none => rfl
    | some r =>
      obtain ⟨v1, h1⟩ := r
      simp only
      rw [← ih h1 v1]
      cases push_all_count E h1 v1 xs with
      | none => rfl
      | some q => rfl

/-- From a non-empty vector whose capacity is a power of two below twice its size, every
capacity change of a run of `push_back` calls doubles the capacity. -/
theorem push_all_count_spec (E : ElemOps T) (xs : List T) :
    ∀ (h : Heap T) (v : Vector) (e : Nat), v.WF E h → v.data.cp = 2 ^ e → 0 < v.sz →
      v.data.cp < 2 * v.sz → 2 * (v.sz + xs.length) * E.sizeOf < SIZE_MOD →
      ∃ v2 h2 k, push_all_count E h v xs = some (v2, h2, k) ∧ v2.sz = v.sz + xs.length ∧
        v2.data.cp = 2 ^ (e + k) ∧ v2.data.cp < 2 * v2.sz ∧ v2.WF E h2 := by
  induction xs with
  | nil =>
    intro h v e hw he _ hlt _
    exact ⟨v, h, 0, rfl, rfl, he, hlt, hw⟩
  | cons y ys ih =>
    intro h v e hw he hpos hlt hb
    simp only [List.length_cons] at hb
    have hov : v.sz = v.data.cp → max 1 (2 * v.sz) * E.sizeOf < SIZE_MOD := by
      intro _
      refine Nat.lt_of_le_of_lt (Nat.mul_le_mul_right _ ?_) hb
      omega
    obtain ⟨v1, h1, e1, e2, e3, e4, _⟩ := push_back_spec E h v y hw hov
    have hb1 : 2 * (v1.sz + ys.length) * E.sizeOf < SIZE_MOD := by
      have : v1.sz + ys.length = v.sz + (ys.length + 1) := by omega
      rw [this]
      exact hb
    by_cases hfull : v.sz = v.data.cp
    · have hcp1 : v1.data.cp = 2 ^ (e + 1) := by
        rw [e3, if_pos hfull, Nat.pow_succ, ← he, ← hfull]
        omega
      obtain ⟨v2, h2, k, f1, f2, f3, f4, f5⟩ := ih h1 v1 (e + 1) e4 hcp1 (by omega)
        (by rw [e3, if_pos hfull]; omega) hb1
      refine ⟨v2, h2, k + 1, ?_, ?_, ?_, f4, f5⟩
      · have hne : ¬ v1.capacity = v.capacity := by
          simp only [Vector.capacity, e3, if_pos hfull]
          omega
        simp only [push_all_count, e1, f1, if_neg hne]
      · simp only [List.length_cons]
        omega
      · rw [f3]
        congr 1
        omega
    · obtain ⟨v2, h2, k, f1, f2, f3, f4, f5⟩ := ih h1 v1 e e4
        (by rw [e3, if_neg hfull, he]) (by omega) (by rw [e3, if_neg hfull]; omega) hb1
      refine ⟨v2, h2, k, ?_, ?_, f3, f4, f5⟩
      · have heq : v1.capacity = v.capacity := by
          simp only [Vector.capacity, e3, if_neg hfull]
        simp only [push_all_count, e1, f1, if_pos heq]
      · simp only [List.length_cons]
        omega

/-- A power of two that is at least `n` and below `2 * n` is `2 ^ clog 2 n`. -/
theorem clog_of_pow_bounds {n k : Nat} (h1 : n ≤ 2 ^ k) (h2 : 2 ^ k < 2 * n) :
    Nat.clog 2 n = k := by
  apply Nat.le_antisymm
  · exact (Nat.le_pow_iff_clog_le (by decide)).1 h1
  · cases k with
    | zero => exact Nat.zero_le _
    | succ k =>
      have h3 : 2 ^ k < n := by
        rw [Nat.pow_succ] at h2
        omega
      exact (Nat.pow_lt_iff_lt_clog (by decide)).1 h3

theorem push_all_count_empty (E : ElemOps T) (h : Heap T) (xs : List T)
    (hne : 1 ≤ xs.length) (hsize : 2 * xs.length * E.sizeOf < SIZE_MOD) :
    ∃ v h1 k, push_all_count E h Vector.ctor_default xs = some (v, h1, k) ∧
      v.sz = xs.length ∧ k = Nat.clog 2 xs.length + 1 ∧
      v.data.cp = 2 ^ Nat.clog 2 xs.length ∧ v.WF E h1 := by
  cases xs with
  | nil => simp at hne
  | cons y ys =>
    simp only [List.length_cons] at hsize ⊢
    have hw0 := ctor_default_WF E h
    have hov : Vector.ctor_default.sz = Vector.ctor_default.data.cp →
        max 1 (2 * Vector.ctor_default.sz) * E.sizeOf < SIZE_MOD := by
      intro _
      refine Nat.lt_of_le_of_lt (Nat.mul_le_mul_right _ ?_) hsize
      simp only [Vector.ctor_default]
      omega
    obtain ⟨v1, h1, e1, e2, e3, e4, _⟩ := push_back_spec E h Vector.ctor_default y hw0 hov
    have hsz1 : v1.sz = 1 := by simpa [Vector.ctor_default] using e2
    have hcp1 : v1.data.cp = 2 ^ 0 := by
      simpa [Vector.ctor_default, RawMemory.default] using e3
    obtain ⟨v2, h2, k, f1, f2, f3, f4, f5⟩ := push_all_count_spec E ys h1 v1 0 e4 hcp1
      (by omega) (by rw [hcp1, hsz1]; decide)
      (by rw [hsz1, Nat.add_comm 1]; exact hsize)
    have hlen : v2.sz = ys.length + 1 := by omega
    have hclog : Nat.clog 2 (ys.length + 1) = k := by
      apply clog_of_pow_bounds
      · have := f5.1
        rw [f3, Nat.zero_add, hlen] at this
        exact this
      · rw [f3, Nat.zero_add, hlen] at f4
        exact f4
    refine ⟨v2, h2, k + 1, ?_, hlen, by rw [hclog], by rw [f3, hclog, Nat.zero_add], f5⟩
    have hne1 : ¬ v1.capacity = Vector.ctor_default.capacity := by
      simp [Vector.capacity, hcp1, Vector.ctor_default, RawMemory.default]
    simp only [push_all_count, e1, f1, if_neg hne1]

/-- Copy assignment of well-formed vectors succeeds and leaves both well formed. -/
theorem assign_copy_total (E : ElemOps T) (h : Heap T) (a b : Vector) (ha : a.WF E h)
    (hb : b.WF E h) (hsep : a.Separate b) :
    ∃ a1 h1, Vector.assign_copy E h a b = some (a1, h1) ∧ a1.sz = b.sz ∧ a1.WF E h1 ∧
      b.WF E h1 := by
  by_cases hgt : a.data.cp < b.sz
  · obtain ⟨a1, h1, e1, e2, _, e4, e5, _⟩ := assign_copy_replace_spec E h a b ha hb hgt
    exact ⟨a1, h1, e1, e2, e4, e5⟩
  · obtain ⟨h1, e1, e2, _, _, _, e6⟩ := assign_copy_reuse E h a b ha hb hsep (by omega)
    refine ⟨_, h1, e1, rfl, e2, ?_⟩
    rcases hsep with hs | hs
    · exact hb.frame (e6 _ (Ne.symm hs))
    · rw [← hs] at e2 ⊢
      exact e2

/-- What `reserve` returns, when it returns. -/
theorem reserve_shape (E : ElemOps T) (h : Heap T) (v : Vector) (n : Nat) {v1 : Vector}
    {h1 : Heap T} (hr : Vector.reserve E h v n = some (v1, h1)) :
    (v.data.cp < n → v1.sz = v.sz ∧ v1.data.cp = n) ∧ (¬ v.data.cp < n → v1 = v ∧ h1 = h) := by
  unfold Vector.reserve at hr
  by_cases hn : n > v.data.cp
  · rw [if_pos hn] at hr
    refine ⟨fun _ => ?_, fun hc => absurd hn hc⟩
    simp only at hr
    split at hr
    · split at hr
      · split at hr
        · simp only [Option.some.injEq, Prod.mk.injEq] at hr
          rw [← hr.1]
          exact ⟨rfl, rfl⟩
        · cases hr
      · cases hr
    · cases hr
  · rw [if_neg hn] at hr
    simp only [Option.some.injEq, Prod.mk.injEq] at hr
    exact ⟨fun hc => absurd hc hn, fun _ => ⟨hr.1.symm, hr.2.symm⟩⟩

theorem ctor_n_size_le (E : ElemOps T) (h : Heap T) (n : Nat) {v : Vector} {h1 : Heap T}
    (hr : Vector.ctor_n E h n = some (v, h1)) : v.size ≤ v.capacity := by
  unfold Vector.ctor_n at hr
  simp only at hr
  split at hr
  · simp only [Option.some.injEq, Prod.mk.injEq] at hr
    rw [← hr.1]
    exact Nat.le_refl _
  · cases hr

theorem reserve_size_le (E : ElemOps T) (h : Heap T) (v : Vector) (n : Nat) (hle : v.sz ≤ v.data.cp)
    {v1 : Vector} {h1 : Heap T} (hr : Vector.reserve E h v n = some (v1, h1)) :
    v1.size ≤ v1.capacity := by
  obtain ⟨s1, s2⟩ := reserve_shape E h v n hr
  simp only [Vector.size, Vector.capacity]
  by_cases hn : v.data.cp < n
  · obtain ⟨e1, e2⟩ := s1 hn
    omega
  · rw [(s2 hn).1]
    exact hle

theorem resize_size_le (E : ElemOps T) (h : Heap T) (v : Vector) (n : Nat)
    {v1 : Vector} {h1 : Heap T} (hr : Vector.resize E h v n = some (v1, h1)) :
    v1.size ≤ v1.capacity := by
  unfold Vector.resize at hr
  cases hres : Vector.reserve E h v n with
  | none => rw [hres] at hr; cases hr
  | some r =>
    obtain ⟨v0, h0⟩ := r
    rw [hres] at hr
    simp only at hr
    obtain ⟨s1, s2⟩ := reserve_shape E h v n hres
    have hcp : n ≤ v0.data.cp := by
      by_cases hn : v.data.cp < n
      · rw [(s1 hn).2]
      · rw [(s2 hn).1]
        omega
    split at hr
    · simp only [Option.some.injEq, Prod.mk.injEq] at hr
      rw [← hr.1]
      exact hcp
    · cases hr

/-- In a full vector the slot after the last element is outside the block. -/
theorem construct_full_none (E : ElemOps T) (h : Heap T) (v : Vector) (x : T) (hw : v.WF E h)
    (hfull : v.sz = v.data.cp) : construct_at h (v.data.plus v.sz) x = none := by
  simp only [construct_at, Heap.store, RawMemory.plus, Ptr.add, hw.2.2.1, Nat.zero_add]
  rcases hw.cases with ⟨_, _, h3⟩ | ⟨b, hb, hbl, _⟩
  · rw [h3]
    rfl
  · rw [hb]
    simp only
    rw [if_neg (by omega)]

theorem push_back_size_le (E : ElemOps T) (h : Heap T) (v : Vector) (elem : T) (hw : v.WF E h)
    {v1 : Vector} {h1 : Heap T} (hr : Vector.push_back E h v elem = some (v1, h1)) :
    v1.size ≤ v1.capacity := by
  unfold Vector.push_back at hr
  have hle := hw.1
  by_cases hfull : v.sz = v.data.cp
  · rw [if_pos hfull] at hr
    simp only at hr
    cases hres : Vector.reserve E h v (if v.sz = 0 then 1 else v.sz * 2 % SIZE_MOD) with
    | none => rw [hres] at hr; cases hr
    | some r =>
      obtain ⟨v0, h0⟩ := r
      rw [hres] at hr
      simp only at hr
      obtain ⟨s1, s2⟩ := reserve_shape E h v _ hres
      by_cases hn : v.data.cp < (if v.sz = 0 then 1 else v.sz * 2 % SIZE_MOD)
      · obtain ⟨e1, e2⟩ := s1 hn
        split at hr
        · simp only [Option.some.injEq, Prod.mk.injEq] at hr
          rw [← hr.1]
          simp only [Vector.size, Vector.capacity]
          have := Nat.mod_le (v0.sz + 1) SIZE_MOD
          omega
        · cases hr
      · obtain ⟨e1, e2⟩ := s2 hn
        rw [e1, e2, construct_full_none E h v _ hw hfull] at hr
        cases hr
  · rw [if_neg hfull] at hr
    simp only at hr
    split at hr
    · simp only [Option.some.injEq, Prod.mk.injEq] at hr
      rw [← hr.1]
      simp only [Vector.size, Vector.capacity]
      have := Nat.mod_le (v.sz + 1) SIZE_MOD
      omega
    · cases hr

theorem assign_index_spec (E : ElemOps T) (h : Heap T) (v : Vector) (i : Nat) (x : T)
    (hw : v.WF E h) (hi : i < v.sz) :
    ∃ h1 old, Vector.assign_index E h v i x = some h1 ∧ Vector.index h v i = some old ∧
      v.WF E h1 ∧ Vector.index h1 v i = some (E.assign old x) ∧
      (∀ j, j ≠ i → Vector.index h1 v j = Vector.index h v j) ∧
      (∀ c, c ≠ v.data.buf.base → h1.block? c = h.block? c) := by
  rcases hw.cases with ⟨h1, _, _⟩ | ⟨b, hb, hbl, hlive⟩
  · omega
  · have ho := hw.2.2.1
    have hle := hw.1
    obtain ⟨old, hold⟩ := hlive i hi
    have hidx : Vector.index h v i = some old := Vector.index_eq hb ho hold
    have hs := Heap.store_eq (p := v.data.buf.add i) (b := b) hb
      (by simp only [Ptr.add, ho]; omega) (some (E.assign old x))
    have hoff : (v.data.buf.add i).off = i := by simp [Ptr.add, ho]
    have hbase : (v.data.buf.add i).base = v.data.buf.base := rfl
    rw [hoff, hbase] at hs
    have hnew := Heap.block?_setBlock_same hb (some (b.set i (some (E.assign old x))))
    refine ⟨h.setBlock v.data.buf.base (some (b.set i (some (E.assign old x)))), old, ?_, hidx,
      ?_, ?_, ?_, ?_⟩
    · have : RawMemory.index h v.data i = some old := hidx
      simp only [Vector.assign_index, this, hs]
    · refine Vector.WF.intro hle hw.2.1 ho hnew (by simpa using hbl) ?_
      intro j hj
      by_cases hji : j = i
      · subst hji
        exact ⟨_, List.getElem?_set_self (by omega)⟩
      · obtain ⟨y, hy⟩ := hlive j hj
        exact ⟨y, by rw [List.getElem?_set_ne (Ne.symm hji), hy]⟩
    · exact Vector.index_eq hnew ho (List.getElem?_set_self (by omega))
    · intro j hj
      simp only [Vector.index, RawMemory.index, Heap.load, Heap.slot?, Ptr.add, ho,
        Nat.zero_add, hnew, hb]
      rw [List.getElem?_set_ne (Ne.symm hj)]
    · intro c hc
      exact Heap.block?_setBlock_ne h hc _

/-- Mutating one of two well-formed vectors that own different blocks leaves the block of
the other one untouched. -/
theorem mutate_frame (E : ElemOps T) (g : Heap T) (u w : Vector) (hu : u.WF E g)
    (hw : w.WF E g) (hne : w.data.buf.base ≠ u.data.buf.base) :
    (∀ x, (u.sz = u.data.cp → max 1 (2 * u.sz) * E.sizeOf < SIZE_MOD) →
      ∃ u2 g2, Vector.push_back E g u x = some (u2, g2) ∧
        g2.block? w.data.buf.base = g.block? w.data.buf.base) ∧
    (0 < u.sz → ∃ u2 g2, Vector.pop_back g u = some (u2, g2) ∧
      g2.block? w.data.buf.base = g.block? w.data.buf.base) ∧
    (∀ n, n * E.sizeOf < SIZE_MOD → ∃ u2 g2, Vector.resize E g u n = some (u2, g2) ∧
      g2.block? w.data.buf.base = g.block? w.data.buf.base) ∧
    (∀ i x, i < u.sz → ∃ g2, Vector.assign_index E g u i x = some g2 ∧
      g2.block? w.data.buf.base = g.block? w.data.buf.base) := by
  have hfresh := hw.ne_fresh
  refine ⟨?_, ?_, ?_, ?_⟩
  · intro x hov
    obtain ⟨u2, g2, e1, _, _, _, _, _, e7, _⟩ := push_back_spec E g u x hu hov
    exact ⟨u2, g2, e1, e7 _ hfresh hne⟩
  · intro hpos
    obtain ⟨g2, e1, _, _, _, e5⟩ := pop_back_spec E g u hu hpos
    exact ⟨_, g2, e1, e5 _ hne⟩
  · intro n hn
    obtain ⟨u2, g2, e1, _, _, _, _, _, _, e8, _⟩ := resize_spec E g u n hu hn
    exact ⟨u2, g2, e1, e8 _ hfresh hne⟩
  · intro i x hi
    obtain ⟨g2, _, e1, _, _, _, _, e6⟩ := assign_index_spec E g u i x hu hi
    exact ⟨g2, e1, e6 _ hne⟩

/-- Moving or copying `n` objects into a block with fewer than `n` slots left is undefined
behaviour. -/
theorem uninitialized_construct_n_none (mk : T → T) (n : Nat) :
    ∀ (h : Heap T) (s d : Ptr) (bs bd : Block T), h.block? s.base = some bs →
      h.block? d.base = some bd → s.base ≠ d.base →
      (∀ j, j < n → ∃ x, bs[s.off + j]? = some (some x)) → d.off ≤ bd.length →
      bd.length < d.off + n → uninitialized_construct_n mk h s n d = none := by
  induction n with
  | zero =>
    intro h s d bs bd _ _ _ _ h1 h2
    omega
  | succ n ih =>
    intro h s d bs bd hs hd hne hlive h1 h2
    obtain ⟨x, hx⟩ := hlive 0 (Nat.succ_pos _)
    have hl := Heap.load_eq hs (by simpa using hx)
    by_cases hfit : d.off < bd.length
    · have hst := Heap.store_eq hd hfit (some (mk x))
      have hrec := ih (h.setBlock d.base (some (bd.set d.off (some (mk x))))) (s.add 1) (d.add 1)
        bs (bd.set d.off (some (mk x)))
        (by rw [Ptr.add, Heap.block?_setBlock_ne h hne, hs])
        (Heap.block?_setBlock_same hd _) hne
        (by
          intro j hj
          obtain ⟨y, hy⟩ := hlive (j + 1) (by omega)
          exact ⟨y, by simpa only [Ptr.add, Nat.add_assoc, Nat.add_comm 1 j] using hy⟩)
        (by simp only [Ptr.add, List.length_set]; omega)
        (by simp only [Ptr.add, List.length_set]; omega)
      simp only [uninitialized_construct_n, construct_at, hl, hst, hrec]
    · simp only [uninitialized_construct_n, construct_at, hl, Heap.store, hd, if_neg hfit]

/-- When the byte count of `reserve(n)` wraps around and the block obtained has fewer slots
than the vector has elements, `reserve(n)` is undefined behaviour. -/
theorem reserve_small_block_none (E : ElemOps T) (h : Heap T) (v : Vector) (n : Nat)
    (hw : v.WF E h) (hn : v.data.cp < n)
    (hsmall : n * E.sizeOf % SIZE_MOD / E.sizeOf < v.sz) : Vector.reserve E h v n = none := by
  have hfresh : (RawMemory.ctor_n E h n).2.block? (h.blocks.length + 1)
      = some (List.replicate (n * E.sizeOf % SIZE_MOD / E.sizeOf) none) :=
    block?_operator_new_fresh E h _
  have hne := hw.ne_fresh
  rcases hw.cases with ⟨h1, _, _⟩ | ⟨b, hb, hbl, hlive⟩
  · rw [h1] at hsmall
    exact absurd hsmall (Nat.not_lt_zero _)
  · have hsrc : (RawMemory.ctor_n E h n).2.block? v.data.buf.base = some b := by
      rw [RawMemory.ctor_n_ne E h n hne, hb]
    have hnone := uninitialized_construct_n_none E.move v.sz (RawMemory.ctor_n E h n).2
      v.data.buf ⟨h.blocks.length + 1, 0⟩ b _ hsrc hfresh hne
      (by
        intro j hj
        rw [hw.2.2.1]
        simpa using hlive j hj)
      (Nat.zero_le _)
      (by simp only [List.length_replicate, Nat.zero_add]; exact hsmall)
    simp only [Vector.reserve, gt_iff_lt, if_pos hn, uninitialized_move_n, RawMemory.ctor_n_fst,
      hnone]

/-- If the `reserve` call of `push_back` on a full vector is undefined behaviour, so is the
`push_back`. -/
theorem push_back_reserve_none (E : ElemOps T) (h : Heap T) (v : Vector) (x : T)
    (hfull : v.sz = v.data.cp)
    (hr : Vector.reserve E h v (if v.sz = 0 then 1 else v.sz * 2 % SIZE_MOD) = none) :
    Vector.push_back E h v x = none := by
  unfold Vector.push_back
  rw [if_pos hfull, hr]

theorem uninitialized_copy_n_throwing_spec (F : Faults T) (d_begin : Ptr) (n : Nat) :
    ∀ (h : Heap T) (s d : Ptr) (k : Nat) (bs bd : Block T), h.block? s.base = some bs →
      h.block? d.base = some bd → s.base ≠ d.base →
      (∀ j, j < n → ∃ x, bs[s.off + j]? = some (some x)) → d.off + n ≤ bd.length →
      d_begin.base = d.base → d_begin.off + k = d.off →
      (∀ j, d_begin.off ≤ j → j < d.off → ∃ y, bd[j]? = some (some y)) →
      ∃ b1, b1.length = bd.length ∧
        ((uninitialized_copy_n_throwing F d_begin h s n d k
            = some (Outcome.returned () (h.setBlock d.base (some b1))) ∧
          (∀ j x, j < n → bs[s.off + j]? = some (some x) →
            ∃ y, F.copy x = some y ∧ b1[d.off + j]? = some (some y)) ∧
          (∀ j, ¬ (d.off ≤ j ∧ j < d.off + n) → b1[j]? = bd[j]?)) ∨
        (uninitialized_copy_n_throwing F d_begin h s n d k
            = some (Outcome.thrown () (h.setBlock d.base (some b1))) ∧
          ∃ j x, j < n ∧ bs[s.off + j]? = some (some x) ∧ F.copy x = none)) := by
  induction n with
  | zero =>
    intro h s d k bs bd _ hd _ _ _ _ _ _
    refine ⟨bd, rfl, Or.inl ⟨?_, ?_, fun _ _ => rfl⟩⟩
    · rw [Heap.setBlock_self hd]
      rfl
    · intro j x hj
      omega
  | succ n ih =>
    intro h s d k bs bd hs hd hne hlive hlen hbase hoff hdone
    obtain ⟨x, hx⟩ := hlive 0 (Nat.succ_pos _)
    have hx0 : bs[s.off]? = some (some x) := by simpa using hx
    have hl := Heap.load_eq hs hx0
    cases hc : F.copy x with
    | none =>
      have hd1 : h.block? d_begin.base = some bd := by rw [hbase]; exact hd
      obtain ⟨b2, d1, d2, _⟩ := destroy_n_spec k h d_begin bd hd1 (by omega)
        (fun j hj1 hj2 => hdone j hj1 (by omega))
      refine ⟨b2, d2, Or.inr ⟨?_, 0, x, Nat.succ_pos _, hx, hc⟩⟩
      simp only [uninitialized_copy_n_throwing, hl, hc, d1, hbase]
    | some y =>
      have hst := Heap.store_eq hd (show d.off < bd.length by omega) (some y)
      obtain ⟨b1, f1, f2⟩ := ih (h.setBlock d.base (some (bd.set d.off (some y)))) (s.add 1)
        (d.add 1) (k + 1) bs (bd.set d.off (some y))
        (by rw [Ptr.add, Heap.block?_setBlock_ne h hne, hs])
        (Heap.block?_setBlock_same hd _) hne
        (by
          intro j hj
          obtain ⟨z, hz⟩ := hlive (j + 1) (by omega)
          exact ⟨z, by simpa only [Ptr.add, Nat.add_assoc, Nat.add_comm 1 j] using hz⟩)
        (by simp only [Ptr.add, List.length_set]; omega)
        hbase (by simp only [Ptr.add]; omega)
        (by
          intro j hj1 hj2
          simp only [Ptr.add] at hj2
          by_cases hjd : j = d.off
          · subst hjd
            exact ⟨y, List.getElem?_set_self (by omega)⟩
          · obtain ⟨z, hz⟩ := hdone j hj1 (by omega)
            exact ⟨z, by rw [List.getElem?_set_ne (Ne.symm hjd), hz]⟩)
      refine ⟨b1, by simpa using f1, ?_⟩
      rcases f2 with ⟨g1, g2, g3⟩ | ⟨g1, j, z, hj, hz, hcz⟩
      · refine Or.inl ⟨?_, ?_, ?_⟩
        · simp only [uninitialized_copy_n_throwing, construct_at, hl, hc, hst, g1]
          simp only [Ptr.add, Heap.setBlock_setBlock]
        · intro j x1 hj hx1
          cases j with
          | zero =>
            have hxx : x = x1 := by
              have := hx.symm.trans hx1
              simpa using this
            subst hxx
            refine ⟨y, hc, ?_⟩
            simp only [Nat.add_zero]
            rw [g3 d.off (by simp only [Ptr.add]; omega), List.getElem?_set_self (by omega)]
          | succ j =>
            obtain ⟨y1, hy1, hy2⟩ := g2 j x1 (by omega)
              (by simpa only [Ptr.add, Nat.add_assoc, Nat.add_comm 1 j] using hx1)
            exact ⟨y1, hy1, by simpa only [Ptr.add, Nat.add_assoc, Nat.add_comm 1 j] using hy2⟩
        · intro j hj
          rw [g3 j (by simp only [Ptr.add]; omega), List.getElem?_set_ne (by omega)]
      · refine Or.inr ⟨?_, j + 1, z, by omega, ?_, hcz⟩
        · simp only [uninitialized_copy_n_throwing, construct_at, hl, hc, hst, g1]
          simp only [Ptr.add, Heap.setBlock_setBlock]
        · simpa only [Ptr.add, Nat.add_assoc, Nat.add_comm 1 j] using hz

/-- When nothing throws, the throwing `std::uninitialized_copy_n` is the plain one. -/
theorem uninitialized_copy_n_throwing_none (E : ElemOps T) (d_begin : Ptr) (n : Nat) :
    ∀ (h : Heap T) (s d : Ptr) (k : Nat),
      uninitialized_copy_n_throwing (Faults.none E) d_begin h s n d k
        = (uninitialized_copy_n E h s n d).map (Outcome.returned ()) := by
  induction n with
  | zero => intro h s d k; rfl
  | succ n ih =>
    intro h s d k
    simp only [uninitialized_copy_n_throwing, uninitialized_copy_n, uninitialized_construct_n,
      Faults.none]
    cases h.load s with
    | none => rfl
    | some x =>
      simp only
      cases construct_at h d (E.copy x) with
      | none => rfl
      | some h1 => exact ih h1 (s.add 1) (d.add 1) (k + 1)

theorem Heap.block?_fresh_none (h : Heap T) : h.block? (h.blocks.length + 1) = none := by
  simp only [Heap.block?]
  rw [List.getElem?_eq_none (Nat.le_refl _)]

/-- The copy constructor when allocation and element copies may throw: it never has
undefined behaviour on a well-formed source, touches no block but the new one, and releases
the new block when it throws. -/
theorem ctor_copy_throwing_spec (F : Faults T) (E : ElemOps T) (h : Heap T) (other : Vector)
    (hw : other.WF E h) :
    ∃ out, Vector.ctor_copy_throwing F E h other = some out ∧
      (∀ u h1, out = Outcome.thrown u h1 →
        (∀ c, c ≠ h.blocks.length + 1 → h1.block? c = h.block? c) ∧
        h1.block? (h.blocks.length + 1) = none) ∧
      (∀ v h1, out = Outcome.returned v h1 →
        v = ⟨other.sz, ⟨⟨h.blocks.length + 1, 0⟩, other.sz⟩⟩ ∧
        (∀ c, c ≠ h.blocks.length + 1 → h1.block? c = h.block? c) ∧
        ∀ i x, i < other.sz → Vector.index h other i = some x → ∃ y, F.copy x = some y) ∧
      (F.new_ok (other.sz * E.sizeOf % SIZE_MOD) = false → out = Outcome.thrown () h) ∧
      (F.new_ok (other.sz * E.sizeOf % SIZE_MOD) = true →
        (∃ i x, i < other.sz ∧ Vector.index h other i = some x ∧ F.copy x = none) →
        ∃ h1, out = Outcome.thrown () h1) := by
  have hsz : other.sz * E.sizeOf < SIZE_MOD :=
    Nat.lt_of_le_of_lt (Nat.mul_le_mul_right _ hw.1) hw.2.1
  have hne := hw.ne_fresh
  cases hnew : F.new_ok (other.sz * E.sizeOf % SIZE_MOD) with
  | false =>
    refine ⟨Outcome.thrown () h, ?_, ?_, ?_, fun _ => rfl, fun hc => by cases hc⟩
    · simp [Vector.ctor_copy_throwing, RawMemory.Allocate_throwing, hnew]
    · intro u h1 he
      cases he
      exact ⟨fun _ _ => rfl, Heap.block?_fresh_none h⟩
    · intro v h1 he
      cases he
  | true =>
    have halloc : RawMemory.Allocate_throwing F E h other.sz
        = Outcome.returned ⟨h.blocks.length + 1, 0⟩ (RawMemory.ctor_n E h other.sz).2 := by
      simp only [RawMemory.Allocate_throwing, hnew, if_true]
      rfl
    have hfresh := RawMemory.ctor_n_fresh E h hsz
    have hframe0 : ∀ c, c ≠ h.blocks.length + 1 →
        (RawMemory.ctor_n E h other.sz).2.block? c = h.block? c :=
      fun c hc => RawMemory.ctor_n_ne E h other.sz hc
    rcases hw.cases with ⟨h1, _, _⟩ | ⟨b, hb, hbl, hlive⟩
    · refine ⟨Outcome.returned ⟨other.sz, ⟨⟨h.blocks.length + 1, 0⟩, other.sz⟩⟩
        (RawMemory.ctor_n E h other.sz).2, ?_, ?_, ?_, (fun hc => by cases hc), ?_⟩
      · have hloop : uninitialized_copy_n_throwing F ⟨h.blocks.length + 1, 0⟩
            (RawMemory.ctor_n E h other.sz).2 other.data.buf other.sz ⟨h.blocks.length + 1, 0⟩ 0
            = some (Outcome.returned () (RawMemory.ctor_n E h other.sz).2) := by
          rw [h1]
          rfl
        simp only [Vector.ctor_copy_throwing, halloc, hloop]
      · intro u h2 he
        cases he
      · intro v h2 he
        cases he
        refine ⟨rfl, hframe0, ?_⟩
        intro i x hi
        omega
      · rintro _ ⟨i, x, hi, _⟩
        omega
    · have hsrc : (RawMemory.ctor_n E h other.sz).2.block? other.data.buf.base = some b := by
        rw [hframe0 _ hne, hb]
      obtain ⟨b1, e1, e2⟩ := uninitialized_copy_n_throwing_spec F ⟨h.blocks.length + 1, 0⟩
        other.sz (RawMemory.ctor_n E h other.sz).2 other.data.buf ⟨h.blocks.length + 1, 0⟩ 0 b
        _ hsrc hfresh hne
        (by
          intro j hj
          rw [hw.2.2.1]
          simpa using hlive j hj)
        (by simp) rfl rfl
        (by
          intro j hj1 hj2
          simp only at hj1 hj2
          omega)
      have hnew1 := Heap.block?_setBlock_same hfresh (some b1)
      rcases e2 with ⟨g1, g2, _⟩ | ⟨g1, j, x, hj, hx, hcx⟩
      · refine ⟨Outcome.returned ⟨other.sz, ⟨⟨h.blocks.length + 1, 0⟩, other.sz⟩⟩
          ((RawMemory.ctor_n E h other.sz).2.setBlock (h.blocks.length + 1) (some b1)), ?_, ?_,
          ?_, (fun hc => by cases hc), ?_⟩
        · simp only [Vector.ctor_copy_throwing, halloc, g1]
        · intro u h2 he
          cases he
        · intro v h2 he
          cases he
          refine ⟨rfl, fun c hc => by rw [Heap.block?_setBlock_ne _ hc, hframe0 c hc], ?_⟩
          intro i x hi hx
          obtain ⟨y, hy, _⟩ := g2 i x hi
            (by rw [hw.2.2.1]; simpa using Vector.index_block hb hw.2.2.1 hx)
          exact ⟨y, hy⟩
        · rintro _ ⟨i, x, hi, hx, hcx⟩
          obtain ⟨y, hy, _⟩ := g2 i x hi
            (by rw [hw.2.2.1]; simpa using Vector.index_block hb hw.2.2.1 hx)
          rw [hcx] at hy
          cases hy
      · have hdel := operator_delete_eq (p := ⟨h.blocks.length + 1, 0⟩) hnew1 rfl
        refine ⟨Outcome.thrown ()
          (((RawMemory.ctor_n E h other.sz).2.setBlock (h.blocks.length + 1) (some b1)).setBlock
            (h.blocks.length + 1) none), ?_, ?_, ?_, (fun hc => by cases hc), fun _ _ => ⟨_, rfl⟩⟩
        · simp only [Vector.ctor_copy_throwing, halloc, g1, RawMemory.dtor,
            RawMemory.Deallocate, hdel]
        · intro u h2 he
          cases he
          refine ⟨fun c hc => ?_, Heap.block?_setBlock_same hnew1 none⟩
          rw [Heap.block?_setBlock_ne _ hc, Heap.block?_setBlock_ne _ hc, hframe0 c hc]
        · intro v h2 he
          cases he

/-- When nothing throws, the throwing copy constructor is the plain one. -/
theorem ctor_copy_throwing_none (E : ElemOps T) (h : Heap T) (other : Vector) :
    Vector.ctor_copy_throwing (Faults.none E) E h other
      = (Vector.ctor_copy E h other).map (fun r => Outcome.returned r.1 r.2) := by
  have halloc : RawMemory.Allocate_throwing (Faults.none E) E h other.sz
      = Outcome.returned (RawMemory.ctor_n E h other.sz).1.buf
          (RawMemory.ctor_n E h other.sz).2 := by
    simp only [RawMemory.Allocate_throwing, Faults.none, if_true]
    rfl
  simp only [Vector.ctor_copy_throwing, Vector.ctor_copy, halloc,
    uninitialized_copy_n_throwing_none]
  cases uninitialized_copy_n E (RawMemory.ctor_n E h other.sz).2 other.data.buf other.sz
      (RawMemory.ctor_n E h other.sz).1.buf with
  | none => rfl
  | some h1 => rfl

/-- When nothing throws, the throwing copy assignment is the plain one. -/
theorem assign_copy_throwing_none (E : ElemOps T) (h : Heap T) (a b : Vector) :
    Vector.assign_copy_throwing (Faults.none E) E h a b
      = (Vector.assign_copy E h a b).map (fun r => Outcome.returned r.1 r.2) := by
  unfold Vector.assign_copy_throwing Vector.assign_copy
  by_cases hgt : b.sz > a.data.cp
  · rw [if_pos hgt, if_pos hgt, ctor_copy_throwing_none]
    cases Vector.ctor_copy E h b with
    | none => rfl
    | some r =>
      obtain ⟨tmp, h1⟩ := r
      simp only [Option.map_some']
      cases Vector.dtor h1 (Vector.swap a tmp).2 with
      | none => rfl
      | some h2 => rfl
  · rw [if_neg hgt, if_neg hgt]
    cases Vector.assign_loop E a b (min a.sz b.sz) 0 h with
    | none => rfl
    | some h1 =>
      simp only
      by_cases hlt : a.sz < b.sz
      · rw [if_pos hlt, if_pos hlt, uninitialized_copy_n_throwing_none]
        cases uninitialized_copy_n E h1 (b.data.buf.add a.sz) (b.sz - a.sz)
            (a.data.buf.add a.sz) with
        | none => rfl
        | some h2 => rfl
      · rw [if_neg hlt, if_neg hlt]
        by_cases hg : a.sz > b.sz
        · rw [if_pos hg, if_pos hg]
          cases destroy_n h1 (a.data.buf.add b.sz) (a.sz - b.sz) with
          | none => rfl
          | some h2 => rfl
        · rw [if_neg hg, if_neg hg]
          rfl

/-- The replacing branch of copy assignment when allocation and element copies may throw. -/
theorem assign_copy_throwing_replace (F : Faults T) (E : ElemOps T) (h : Heap T)
    (a b : Vector) (ha : a.WF E h) (hb : b.WF E h) (hgt : a.data.cp < b.sz) :
    ∃ out, Vector.assign_copy_throwing F E h a b = some out ∧
      (∀ a1 h1, out = Outcome.thrown a1 h1 → a1 = a ∧
        (∀ c, c ≠ h.blocks.length + 1 → h1.block? c = h.block? c) ∧
        h1.block? (h.blocks.length + 1) = none) ∧
      (F.new_ok (b.sz * E.sizeOf % SIZE_MOD) = false → out = Outcome.thrown a h) ∧
      (F.new_ok (b.sz * E.sizeOf % SIZE_MOD) = true →
        (∃ i x, i < b.sz ∧ Vector.index h b i = some x ∧ F.copy x = none) →
        ∃ h1, out = Outcome.thrown a h1) := by
  obtain ⟨out0, e1, e2, e3, e4, e5⟩ := ctor_copy_throwing_spec F E h b hb
  cases out0 with
  | returned tmp h1 =>
    obtain ⟨_, f2, f3⟩ := e3 tmp h1 rfl
    have ha1 : a.WF E h1 := ha.frame (f2 _ ha.ne_fresh)
    obtain ⟨h2, d1, _, _⟩ := dtor_spec E h1 a ha1
    refine ⟨Outcome.returned tmp h2, ?_, ?_, ?_, ?_⟩
    · simp only [Vector.assign_copy_throwing, if_pos hgt, gt_iff_lt, e1, Vector.swap,
        RawMemory.Swap, d1]
    · intro a1 h3 he
      cases he
    · intro hf
      cases e4 hf
    · intro ht hex
      obtain ⟨h3, he⟩ := e5 ht hex
      cases he
  | thrown u h1 =>
    obtain ⟨f1, f2⟩ := e2 u h1 rfl
    refine ⟨Outcome.thrown a h1, ?_, ?_, ?_, ?_⟩
    · simp only [Vector.assign_copy_throwing, if_pos hgt, gt_iff_lt, e1]
    · intro a1 h3 he
      cases he
      exact ⟨rfl, f1, f2⟩
    · intro hf
      have := e4 hf
      cases this
      rfl
    · intro _ _
      exact ⟨h1, rfl⟩

/-- On a full vector whose doubled size does not fit `size_t` in bytes, `push_back` is
undefined behaviour. -/
theorem push_back_overflow_none (E : ElemOps T) (h : Heap T) (v : Vector) (x : T)
    (hw : v.WF E h) (hfull : v.sz = v.data.cp)
    (hov : SIZE_MOD ≤ max 1 (2 * v.sz) * E.sizeOf) : Vector.push_back E h v x = none := by
  have hpos := E.sizeOf_pos
  have hlt := E.sizeOf_lt
  have hcap := hw.2.1
  have hsz0 : v.sz ≠ 0 := by
    intro h0
    rw [h0] at hov
    simp only [Nat.mul_zero, Nat.zero_le, max_eq_left, Nat.one_mul] at hov
    omega
  have hmax : max 1 (2 * v.sz) = 2 * v.sz := by omega
  rw [hmax] at hov
  have hszlt : v.sz < SIZE_MOD := by
    have h3 : v.data.cp ≤ v.data.cp * E.sizeOf := Nat.le_mul_of_pos_right _ hpos
    omega
  by_cases hwrap : SIZE_MOD ≤ 2 * v.sz
  · have harg : v.sz * 2 % SIZE_MOD ≤ v.data.cp := by
      have e : v.sz * 2 = (2 * v.sz - SIZE_MOD) + SIZE_MOD := by omega
      rw [e, Nat.add_mod_right, Nat.mod_eq_of_lt (by omega)]
      omega
    unfold Vector.push_back
    rw [if_pos hfull, if_neg hsz0]
    have hres : Vector.reserve E h v (v.sz * 2 % SIZE_MOD) = some (v, h) := by
      unfold Vector.reserve
      rw [if_neg (by omega)]
    rw [hres]
    simp only [construct_full_none E h v _ hw hfull]
  · have harg : v.sz * 2 % SIZE_MOD = 2 * v.sz := by
      rw [Nat.mul_comm, Nat.mod_eq_of_lt (by omega)]
    apply push_back_reserve_none E h v x hfull
    rw [if_neg hsz0, harg]
    apply reserve_small_block_none E h v (2 * v.sz) hw (by omega)
    have hb2 : 2 * v.sz * E.sizeOf < 2 * SIZE_MOD := by
      have : 2 * v.sz * E.sizeOf = 2 * (v.data.cp * E.sizeOf) := by
        rw [hfull, Nat.mul_assoc]
      omega
    have hmod : 2 * v.sz * E.sizeOf % SIZE_MOD = 2 * v.sz * E.sizeOf - SIZE_MOD := by
      have e : 2 * v.sz * E.sizeOf = (2 * v.sz * E.sizeOf - SIZE_MOD) + SIZE_MOD := by omega
      rw [e, Nat.add_mod_right, Nat.mod_eq_of_lt (by omega)]
      omega
    rw [hmod]
    apply Nat.div_lt_of_lt_mul
    have : 2 * v.sz * E.sizeOf = 2 * (E.sizeOf * v.sz) := by
      rw [Nat.mul_assoc, Nat.mul_comm v.sz]
    have h5 : E.sizeOf * v.sz < SIZE_MOD := by
      rw [Nat.mul_comm, hfull]
      exact hcap
    omega

/-- C1: starting from a default-constructed vector, `push_back` of the values
`x_0 .. x_{N-1}` in order gives a vector with `size() == N` and `operator[](i) == x_i` for
every `i < N`, when the element type copies and moves by value and `2 * N * sizeof(T)` does
not overflow `size_t`. -/
theorem C1_push_back_sequence (E : ElemOps T) (h : Heap T) (xs : List T)
    (hcopy : ∀ x, E.copy x = x) (hmove : ∀ x, E.move x = x)
    (hsize : 2 * xs.length * E.sizeOf < SIZE_MOD) :
    ∃ v h1, push_all E h Vector.ctor_default xs = some (v, h1) ∧ v.size = xs.length ∧
      ∀ i (hi : i < xs.length), Vector.index h1 v i = some xs[i] := by
  obtain ⟨v, h1, e1, e2, _, _, e5⟩ := push_all_spec E hcopy hmove xs h Vector.ctor_default
    (ctor_default_WF E h) (by simpa [Vector.ctor_default] using hsize)
  refine ⟨v, h1, e1, ?_, ?_⟩
  · simpa [Vector.size, Vector.ctor_default] using e2
  · intro i hi
    have := e5 i hi
    simpa [Vector.ctor_default] using this

/-- C1 at the values 1, 2, 3 of a 64-bit element type, on the empty heap. -/
theorem C1_push_back_sequence_witness :
    (∀ x, natOps.copy x = x) ∧ (∀ x, natOps.move x = x) ∧
    2 * [1, 2, 3].length * natOps.sizeOf < SIZE_MOD ∧
    ∃ v h1, push_all natOps Heap.empty Vector.ctor_default [1, 2, 3] = some (v, h1) ∧
      v.size = [1, 2, 3].length ∧
      ∀ i (hi : i < [1, 2, 3].length), Vector.index h1 v i = some [1, 2, 3][i] :=
  ⟨fun _ => rfl, fun _ => rfl, by decide,
    C1_push_back_sequence natOps Heap.empty [1, 2, 3] (fun _ => rfl) (fun _ => rfl) (by decide)⟩

/-- C2: the copy constructor `Vector(other)` gives a vector whose size is `other.size()`,
whose capacity is exactly `other.size()`, and whose element at every index
`i < other.size()` equals `other[i]`; `other` keeps its block and its elements. -/
theorem C2_copy_constructor (E : ElemOps T) (h : Heap T) (other : Vector)
    (hcopy : ∀ x, E.copy x = x) (hw : other.WF E h) :
    ∃ v h1, Vector.ctor_copy E h other = some (v, h1) ∧
      v.size = other.size ∧ v.capacity = other.size ∧
      (∀ i, i < other.size → ∃ x, Vector.index h other i = some x ∧
        Vector.index h1 v i = some x ∧ Vector.index h1 other i = some x) ∧
      h1.block? other.data.buf.base = h.block? other.data.buf.base ∧ other.WF E h1 := by
  obtain ⟨v, h1, e1, e2, e3, e4, e5, e6, _⟩ := ctor_copy_correct E h other hcopy hw
  exact ⟨v, h1, e1, e2, e3, e4, e5, e6⟩

/-- C2 at a vector of size 3 and capacity 4: the copy has capacity 3. -/
theorem C2_copy_constructor_witness :
    (∀ x, natOps.copy x = x) ∧ demoVec.WF natOps demoHeap ∧
    ∃ v h1, Vector.ctor_copy natOps demoHeap demoVec = some (v, h1) ∧
      v.size = demoVec.size ∧ v.capacity = demoVec.size ∧
      (∀ i, i < demoVec.size → ∃ x, Vector.index demoHeap demoVec i = some x ∧
        Vector.index h1 v i = some x ∧ Vector.index h1 demoVec i = some x) ∧
      h1.block? demoVec.data.buf.base = demoHeap.block? demoVec.data.buf.base ∧
      demoVec.WF natOps h1 :=
  ⟨fun _ => rfl, by decide,
    C2_copy_constructor natOps demoHeap demoVec (fun _ => rfl) (by decide)⟩

/-- C3, as stated, fails: with 8-byte elements, `reserve(2 ^ 61 + 8)` on a vector of size 5
and capacity 8 asks `operator new` for `(2 ^ 61 + 8) * 8 mod 2 ^ 64 = 64` bytes and returns
with size 5 and capacity `2 ^ 61 + 8` over a block of eight slots.  For this `a` and a `b`
of size 10, `size <= capacity` and `b.size() <= a.capacity()` hold, and `a = b` takes the
reuse path and copy-constructs the ninth element outside the block of `a`, which is
undefined behaviour. -/
theorem C3_copy_assign_reuse_counterexample :
    demoA.WF natOps demoHeap3 ∧
    Vector.reserve natOps demoHeap3 demoA (2 ^ 61 + 8) = some (wrapA, wrapHeap) ∧
    wrapA.size ≤ wrapA.capacity ∧ demoC.WF natOps wrapHeap ∧ wrapA.Separate demoC ∧
    demoC.size ≤ wrapA.capacity ∧
    Vector.assign_copy natOps wrapHeap wrapA demoC = none :=
  ⟨by decide, by decide, by decide, by decide, Or.inl (by decide), by decide, by decide⟩

/-- C3, amended: for vectors `a` and `b` that satisfy the class invariant `Vector.WF`
(`size <= capacity`; the buffer is null with capacity 0, or is a block of exactly `capacity`
slots, of less than `2 ^ 64` bytes, whose first `size` slots hold live elements) and own
different blocks or are the same object, with `b.size() <= a.capacity()`, copy assignment
`a = b` reuses the storage of `a`: afterwards `a.size() == b.size()`, `a[i] == b[i]` for
every `i < b.size()`, the capacity and the block of `a` are the ones it had, and the
elements of `a` beyond `b.size()` have been destroyed. -/
theorem C3_copy_assign_reuse (E : ElemOps T) (h : Heap T) (a b : Vector)
    (hcopy : ∀ x, E.copy x = x) (hassign : ∀ x y, E.assign x y = y)
    (ha : a.WF E h) (hb : b.WF E h) (hsep : a.Separate b) (hle : b.size ≤ a.capacity) :
    ∃ a1 h1, Vector.assign_copy E h a b = some (a1, h1) ∧ a1.size = b.size ∧
      a1.capacity = a.capacity ∧ a1.data = a.data ∧
      (∀ i, i < b.size → ∃ x, Vector.index h b i = some x ∧ Vector.index h1 a1 i = some x ∧
        Vector.index h1 b i = some x) ∧
      (∀ i, b.size ≤ i → i < a.size → Vector.index h1 a1 i = none) := by
  obtain ⟨h1, e1, _, e3, e4, e5, e6⟩ := assign_copy_reuse E h a b ha hb hsep hle
  have key : ∀ i, i < b.sz → ∃ x, Vector.index h b i = some x ∧
      Vector.index h1 ⟨b.sz, a.data⟩ i = some x := by
    intro i hi
    obtain ⟨y, hy⟩ := Vector.index_some hb hi
    refine ⟨y, hy, ?_⟩
    by_cases hia : i < a.sz
    · obtain ⟨x, hx⟩ := Vector.index_some ha hia
      rw [e3 i x y hia hi hx hy, hassign]
    · rw [e4 i y (by omega) hi hy, hcopy]
  refine ⟨⟨b.sz, a.data⟩, h1, e1, rfl, rfl, rfl, ?_, e5⟩
  intro i hi
  obtain ⟨x, hx1, hx2⟩ := key i hi
  refine ⟨x, hx1, hx2, ?_⟩
  rcases hsep with hs | hs
  · rw [Vector.index_frame i (e6 _ (Ne.symm hs))]
    exact hx1
  · rw [← hx2, hs]

/-- C3 amended, at the stated instance: `a` of size 5 and capacity 8, assigned from `b` of
size 2, ends with size 2 and capacity 8. -/
theorem C3_copy_assign_reuse_witness :
    ((∀ x, natOps.copy x = x) ∧ (∀ x y, natOps.assign x y = y) ∧ demoA.WF natOps demoHeap3 ∧
      demoB.WF natOps demoHeap3 ∧ demoA.Separate demoB ∧ demoB.size ≤ demoA.capacity) ∧
    (∃ a1 h1, Vector.assign_copy natOps demoHeap3 demoA demoB = some (a1, h1) ∧
      a1.size = demoB.size ∧ a1.capacity = demoA.capacity ∧ a1.data = demoA.data ∧
      (∀ i, i < demoB.size → ∃ x, Vector.index demoHeap3 demoB i = some x ∧
        Vector.index h1 a1 i = some x ∧ Vector.index h1 demoB i = some x) ∧
      (∀ i, demoB.size ≤ i → i < demoA.size → Vector.index h1 a1 i = none)) ∧
    (Vector.assign_copy natOps demoHeap3 demoA demoB).map (fun r => (r.1.size, r.1.capacity))
      = some (2, 8) :=
  ⟨⟨fun _ => rfl, fun _ _ => rfl, by decide, by decide, Or.inl (by decide), by decide⟩,
    C3_copy_assign_reuse natOps demoHeap3 demoA demoB (fun _ => rfl) (fun _ _ => rfl)
      (by decide) (by decide) (Or.inl (by decide)) (by decide),
    by decide⟩

/-- C4: for vectors `a` and `b` with `b.size() > a.capacity()`, copy assignment `a = b`
leaves `a` with `a.capacity() >= b.size()`, `a.size() == b.size()` and `a[i] == b[i]` for
every `i < b.size()`, and `b` keeps its block and its elements. -/
theorem C4_copy_assign_replace (E : ElemOps T) (h : Heap T) (a b : Vector)
    (hcopy : ∀ x, E.copy x = x) (ha : a.WF E h) (hb : b.WF E h)
    (hgt : b.size > a.capacity) :
    ∃ a1 h1, Vector.assign_copy E h a b = some (a1, h1) ∧ a1.capacity ≥ b.size ∧
      a1.size = b.size ∧
      (∀ i, i < b.size → ∃ x, Vector.index h b i = some x ∧ Vector.index h1 a1 i = some x ∧
        Vector.index h1 b i = some x) ∧
      h1.block? b.data.buf.base = h.block? b.data.buf.base ∧ b.WF E h1 := by
  obtain ⟨a1, h1, e1, e2, e3, _, e5, e6, e7, _⟩ := assign_copy_replace E h a b hcopy ha hb hgt
  exact ⟨a1, h1, e1, Nat.le_of_eq e3.symm, e2, e6, e7, e5⟩

/-- C4 at the stated instance: `a` of size 2 and capacity 2, assigned from `b` of size 10,
ends with size 10 and capacity 10. -/
theorem C4_copy_assign_replace_witness :
    ((∀ x, natOps.copy x = x) ∧ demoB.WF natOps demoHeap3 ∧ demoC.WF natOps demoHeap3 ∧
      demoC.size > demoB.capacity) ∧
    (∃ a1 h1, Vector.assign_copy natOps demoHeap3 demoB demoC = some (a1, h1) ∧
      a1.capacity ≥ demoC.size ∧ a1.size = demoC.size ∧
      (∀ i, i < demoC.size → ∃ x, Vector.index demoHeap3 demoC i = some x ∧
        Vector.index h1 a1 i = some x ∧ Vector.index h1 demoC i = some x) ∧
      h1.block? demoC.data.buf.base = demoHeap3.block? demoC.data.buf.base ∧
      demoC.WF natOps h1) ∧
    (Vector.assign_copy natOps demoHeap3 demoB demoC).map (fun r => (r.1.size, r.1.capacity))
      = some (10, 10) :=
  ⟨⟨fun _ => rfl, by decide, by decide, by decide⟩,
    C4_copy_assign_replace natOps demoHeap3 demoB demoC (fun _ => rfl) (by decide) (by decide)
      (by decide),
    by decide⟩

/-- C5: copy-assigning a vector to itself leaves its size, its capacity and every element
`a[i]`, `i < size`, unchanged, when assigning an element to itself leaves it unchanged. -/
theorem C5_self_assign (E : ElemOps T) (h : Heap T) (a : Vector)
    (hself : ∀ x, E.assign x x = x) (ha : a.WF E h) :
    ∃ h1, Vector.assign_copy E h a a = some (a, h1) ∧
      ∀ i, i < a.size → ∃ x, Vector.index h a i = some x ∧ Vector.index h1 a i = some x := by
  obtain ⟨h1, e1, _, e3, _, _, _⟩ := assign_copy_reuse E h a a ha ha (Or.inr rfl) ha.1
  refine ⟨h1, e1, ?_⟩
  intro i hi
  obtain ⟨x, hx⟩ := Vector.index_some ha hi
  refine ⟨x, hx, ?_⟩
  have := e3 i x x hi hi hx hx
  rw [hself] at this
  exact this

/-- C5 at a vector of size 5 and capacity 8. -/
theorem C5_self_assign_witness :
    (∀ x, natOps.assign x x = x) ∧ demoA.WF natOps demoHeap3 ∧
    ∃ h1, Vector.assign_copy natOps demoHeap3 demoA demoA = some (demoA, h1) ∧
      ∀ i, i < demoA.size → ∃ x, Vector.index demoHeap3 demoA i = some x ∧
        Vector.index h1 demoA i = some x :=
  ⟨fun _ => rfl, by decide, C5_self_assign natOps demoHeap3 demoA (fun _ => rfl) (by decide)⟩

/-- C6, as stated, fails: after `b = std::move(a)` with `b` of size 2 and `a` of size 5, the
size of `a` is 2, not 0. -/
theorem C6_move_assign_counterexample :
    demoA ≠ demoB ∧ demoA.WF natOps demoHeap3 ∧ demoB.WF natOps demoHeap3 ∧
    (Vector.assign_move demoB demoA).2.size = 2 ∧ (Vector.assign_move demoB demoA).2.size ≠ 0 := by
  decide

/-- C6, amended: after `b = std::move(a)` the size, capacity and elements of `b` are those
`a` had before, and `a` holds the size, capacity and elements `b` had before; so
`a.size() == 0` exactly when `b` was empty before the move. -/
theorem C6_move_assign (a b : Vector) :
    (Vector.assign_move b a).1 = a ∧ (Vector.assign_move b a).2 = b ∧
    (∀ (h : Heap T) i, Vector.index h (Vector.assign_move b a).1 i = Vector.index h a i) ∧
    (∀ (h : Heap T) i, Vector.index h (Vector.assign_move b a).2 i = Vector.index h b i) ∧
    ((Vector.assign_move b a).2.size = 0 ↔ b.size = 0) :=
  ⟨rfl, rfl, fun _ _ => rfl, fun _ _ => rfl, Iff.rfl⟩

/-- C7: the move constructor `Vector(std::move(other))` gives a vector with the size,
capacity, block and elements `other` had, and leaves `other` empty: size 0, capacity 0 and
a null block. -/
theorem C7_move_constructor (other : Vector) :
    (Vector.ctor_move other).1 = other ∧
    (∀ (h : Heap T) i, Vector.index h (Vector.ctor_move other).1 i = Vector.index h other i) ∧
    (Vector.ctor_move other).2.size = 0 ∧ (Vector.ctor_move other).2.capacity = 0 ∧
    (Vector.ctor_move other).2.data.buf = nullptr :=
  ⟨rfl, fun _ _ => rfl, rfl, rfl, rfl⟩

/-- C8, as stated, fails: with 8-byte elements, `reserve(2 ^ 61)` on a vector of size 3 and
capacity 4 asks `operator new` for `2 ^ 61 * 8 mod 2 ^ 64 = 0` bytes and then moves the
first element outside the new block, which is undefined behaviour. -/
theorem C8_reserve_counterexample :
    demoVec.WF natOps demoHeap ∧ Vector.reserve natOps demoHeap demoVec (2 ^ 61) = none := by
  decide

/-- C8, amended: for every vector `v` and every `n` with `n * sizeof(T)` representable in
`size_t`, after `v.reserve(n)` the capacity is `max(old capacity, n)`: it does not decrease,
it is at least `n`, and when `n <= old capacity` the call changes nothing. -/
theorem C8_reserve_capacity (E : ElemOps T) (h : Heap T) (v : Vector) (n : Nat)
    (hw : v.WF E h) (hn : n * E.sizeOf < SIZE_MOD) :
    ∃ v1 h1, Vector.reserve E h v n = some (v1, h1) ∧
      v1.capacity = max v.capacity n ∧ v.capacity ≤ v1.capacity ∧ n ≤ v1.capacity ∧
      (n ≤ v.capacity → v1 = v ∧ h1 = h) := by
  obtain ⟨v1, h1, e1, _, e3, _, e5, _⟩ := reserve_spec E h v n hw hn
  refine ⟨v1, h1, e1, e3, ?_, ?_, e5⟩
  · simp only [Vector.capacity, e3]
    exact Nat.le_max_left _ _
  · simp only [Vector.capacity, e3]
    exact Nat.le_max_right _ _

/-- C8 amended, at a vector of size 3 and capacity 4 and `n = 6`. -/
theorem C8_reserve_capacity_witness :
    (demoVec.WF natOps demoHeap ∧ 6 * natOps.sizeOf < SIZE_MOD) ∧
    ∃ v1 h1, Vector.reserve natOps demoHeap demoVec 6 = some (v1, h1) ∧
      v1.capacity = max demoVec.capacity 6 ∧ demoVec.capacity ≤ v1.capacity ∧
      6 ≤ v1.capacity ∧ (6 ≤ demoVec.capacity → v1 = demoVec ∧ h1 = demoHeap) :=
  ⟨⟨by decide, by decide⟩, C8_reserve_capacity natOps demoHeap demoVec 6 (by decide) (by decide)⟩

/-- C9, as stated, fails: with 8-byte elements, `reserve(2 ^ 61 + 1)` on a vector of size 5
and capacity 8 obtains a block of one slot (the byte count wraps to 8) and moves the second
element outside it, which is undefined behaviour. -/
theorem C9_reserve_contents_counterexample :
    demoA.WF natOps demoHeap3 ∧ demoA.capacity < 2 ^ 61 + 1 ∧
    Vector.reserve natOps demoHeap3 demoA (2 ^ 61 + 1) = none := by
  decide

/-- C9, amended: for every vector `v` and every `n > capacity` with `n * sizeof(T)`
representable in `size_t`, `v.reserve(n)` keeps the live contents: `size()` is unchanged and
`v[i]` is what it was for every `i < size()`. -/
theorem C9_reserve_contents (E : ElemOps T) (h : Heap T) (v : Vector) (n : Nat)
    (hmove : ∀ x, E.move x = x) (hw : v.WF E h) (hgt : v.capacity < n)
    (hn : n * E.sizeOf < SIZE_MOD) :
    ∃ v1 h1, Vector.reserve E h v n = some (v1, h1) ∧ v1.size = v.size ∧
      ∀ i, i < v.size → ∃ x, Vector.index h v i = some x ∧ Vector.index h1 v1 i = some x := by
  obtain ⟨v1, h1, e1, e2, _, _, _, e6, _⟩ := reserve_spec E h v n hw hn
  refine ⟨v1, h1, e1, e2, ?_⟩
  intro i hi
  obtain ⟨x, hx⟩ := Vector.index_some hw hi
  refine ⟨x, hx, ?_⟩
  have hgt1 : v.data.cp < n := hgt
  have := e6 i x hi hx
  rw [if_pos hgt1, hmove] at this
  exact this

/-- C9 amended, at a vector of size 5 and capacity 8 and `n = 9`. -/
theorem C9_reserve_contents_witness :
    ((∀ x, natOps.move x = x) ∧ demoA.WF natOps demoHeap3 ∧ demoA.capacity < 9 ∧
      9 * natOps.sizeOf < SIZE_MOD) ∧
    ∃ v1 h1, Vector.reserve natOps demoHeap3 demoA 9 = some (v1, h1) ∧ v1.size = demoA.size ∧
      ∀ i, i < demoA.size → ∃ x, Vector.index demoHeap3 demoA i = some x ∧
        Vector.index h1 v1 i = some x :=
  ⟨⟨fun _ => rfl, by decide, by decide, by decide⟩,
    C9_reserve_contents natOps demoHeap3 demoA 9 (fun _ => rfl) (by decide) (by decide)
      (by decide)⟩

/-- C10, as stated, fails, in two ways.  With 8-byte elements, `resize(2 ^ 61)` on an empty
vector obtains a block of no slots (the byte count wraps to 0) and value-constructs the
first new element outside it, which is undefined behaviour.  And `reserve(2 ^ 61 + 8)` on a
vector of size 5 and capacity 8 returns with capacity `2 ^ 61 + 8` over a block of eight
slots (the byte count wraps to 64): on this vector, with `size <= capacity`, `resize(20)`
does not reserve and value-constructs the ninth element outside the block. -/
theorem C10_resize_counterexample :
    (Vector.ctor_default.WF natOps (Heap.empty : Heap Nat) ∧
      Vector.resize natOps Heap.empty Vector.ctor_default (2 ^ 61) = none) ∧
    (demoA.WF natOps demoHeap3 ∧
      Vector.reserve natOps demoHeap3 demoA (2 ^ 61 + 8) = some (wrapA, wrapHeap) ∧
      wrapA.size ≤ wrapA.capacity ∧ 20 * natOps.sizeOf < SIZE_MOD ∧
      Vector.resize natOps wrapHeap wrapA 20 = none) := by
  decide

/-- C10, amended: for every vector `v` that satisfies the class invariant `Vector.WF`
(`size <= capacity`; the buffer is null with capacity 0, or is a block of exactly `capacity`
slots, of less than `2 ^ 64` bytes, whose first `size` slots hold live elements) and
every `n` with `n * sizeof(T)` representable in `size_t`, after `v.resize(n)`:
`size() == n`; every element at an index `i < min(old size, n)` is unchanged; and every
element at an index in `[old size, n)` is the value-initialised element. -/
theorem C10_resize (E : ElemOps T) (h : Heap T) (v : Vector) (n : Nat)
    (hmove : ∀ x, E.move x = x) (hw : v.WF E h) (hn : n * E.sizeOf < SIZE_MOD) :
    ∃ v1 h1, Vector.resize E h v n = some (v1, h1) ∧ v1.size = n ∧
      (∀ i, i < min v.size n →
        ∃ x, Vector.index h v i = some x ∧ Vector.index h1 v1 i = some x) ∧
      (∀ i, v.size ≤ i → i < n → Vector.index h1 v1 i = some E.dflt) := by
  obtain ⟨v1, h1, e1, e2, _, _, e5, e6, _⟩ := resize_spec E h v n hw hn
  refine ⟨v1, h1, e1, e2, ?_, e6⟩
  intro i hi
  have hi1 : i < v.sz := Nat.lt_of_lt_of_le hi (Nat.min_le_left _ _)
  have hi2 : i < n := Nat.lt_of_lt_of_le hi (Nat.min_le_right _ _)
  obtain ⟨x, hx⟩ := Vector.index_some hw hi1
  refine ⟨x, hx, ?_⟩
  have := e5 i x hi1 hi2 hx
  rw [hmove] at this
  simpa using this

/-- C10 amended, at a vector of size 3 and capacity 4 and `n = 6`. -/
theorem C10_resize_witness :
    ((∀ x, natOps.move x = x) ∧ demoVec.WF natOps demoHeap ∧ 6 * natOps.sizeOf < SIZE_MOD) ∧
    ∃ v1 h1, Vector.resize natOps demoHeap demoVec 6 = some (v1, h1) ∧ v1.size = 6 ∧
      (∀ i, i < min demoVec.size 6 →
        ∃ x, Vector.index demoHeap demoVec i = some x ∧ Vector.index h1 v1 i = some x) ∧
      (∀ i, demoVec.size ≤ i → i < 6 → Vector.index h1 v1 i = some natOps.dflt) :=
  ⟨⟨fun _ => rfl, by decide, by decide⟩,
    C10_resize natOps demoHeap demoVec 6 (fun _ => rfl) (by decide) (by decide)⟩

/-- C17: `a.swap(b)` exchanges the states: afterwards `a` has exactly the size, capacity,
block and elements `b` had and `b` has those `a` had; move assignment `a = std::move(b)`
gives the same pair of states as `a.swap(b)`. -/
theorem C17_swap_exchanges (a b : Vector) :
    (Vector.swap a b).1 = b ∧ (Vector.swap a b).2 = a ∧
    (∀ (h : Heap T) i, Vector.index h (Vector.swap a b).1 i = Vector.index h b i) ∧
    (∀ (h : Heap T) i, Vector.index h (Vector.swap a b).2 i = Vector.index h a i) ∧
    Vector.assign_move a b = Vector.swap a b :=
  ⟨rfl, rfl, fun _ _ => rfl, fun _ _ => rfl, rfl⟩

/-- C18, as stated, fails: with 8-byte elements, `Vector(2 ^ 62)` asks `operator new` for
`2 ^ 62 * 8 mod 2 ^ 64 = 0` bytes and value-constructs the first element outside the block,
which is undefined behaviour. -/
theorem C18_sized_constructor_counterexample :
    Vector.ctor_n natOps (Heap.empty : Heap Nat) (2 ^ 62) = none := by
  decide

/-- C18, amended: for every `n` with `n * sizeof(T)` representable in `size_t`, the sized
constructor `Vector(n)` gives a vector with `size() == n`, `capacity() == n` and every
element at an index `i < n` equal to the value-initialised element. -/
theorem C18_sized_constructor (E : ElemOps T) (h : Heap T) (n : Nat)
    (hn : n * E.sizeOf < SIZE_MOD) :
    ∃ v h1, Vector.ctor_n E h n = some (v, h1) ∧ v.size = n ∧ v.capacity = n ∧
      ∀ i, i < n → Vector.index h1 v i = some E.dflt := by
  obtain ⟨h1, e1, _, e3, _⟩ := ctor_n_spec E h n hn
  exact ⟨_, h1, e1, rfl, rfl, e3⟩

/-- C18 amended, at `n = 3` on the empty heap. -/
theorem C18_sized_constructor_witness :
    3 * natOps.sizeOf < SIZE_MOD ∧
    ∃ v h1, Vector.ctor_n natOps (Heap.empty : Heap Nat) 3 = some (v, h1) ∧ v.size = 3 ∧
      v.capacity = 3 ∧ ∀ i, i < 3 → Vector.index h1 v i = some natOps.dflt :=
  ⟨by decide, C18_sized_constructor natOps Heap.empty 3 (by decide)⟩

/-- C19: `v.clear()` is `v.resize(0)`: afterwards `size() == 0` and `capacity()` is what it
was before the call. -/
theorem C19_clear (E : ElemOps T) (h : Heap T) (v : Vector) (hw : v.WF E h) :
    Vector.clear E h v = Vector.resize E h v 0 ∧
    ∃ v1 h1, Vector.clear E h v = some (v1, h1) ∧ v1.size = 0 ∧ v1.capacity = v.capacity := by
  obtain ⟨v1, h1, e1, e2, e3, _⟩ := resize_spec E h v 0 hw (by simp [SIZE_MOD])
  refine ⟨rfl, v1, h1, e1, e2, ?_⟩
  simp only [Vector.capacity, e3]
  omega

/-- C19 at a vector of size 3 and capacity 4. -/
theorem C19_clear_witness :
    demoVec.WF natOps demoHeap ∧
    Vector.clear natOps demoHeap demoVec = Vector.resize natOps demoHeap demoVec 0 ∧
    ∃ v1 h1, Vector.clear natOps demoHeap demoVec = some (v1, h1) ∧ v1.size = 0 ∧
      v1.capacity = demoVec.capacity :=
  ⟨by decide, C19_clear natOps demoHeap demoVec (by decide)⟩

/-- C20, as stated, fails: `RawMemory::Allocate(0)` calls `operator new(0)`, which hands out
a block, and the address is not null; so `RawMemory(0)` and `Vector(0)` hold a non-null
address. -/
theorem C20_allocate_zero_counterexample :
    (RawMemory.Allocate natOps (Heap.empty : Heap Nat) 0).1 ≠ nullptr ∧
    (RawMemory.Allocate natOps (Heap.empty : Heap Nat) 0).2.blocks.length = 1 ∧
    (RawMemory.ctor_n natOps (Heap.empty : Heap Nat) 0).1.buf ≠ nullptr ∧
    (Vector.ctor_n natOps (Heap.empty : Heap Nat) 0).map (fun r => decide (r.1.data.buf = nullptr))
      = some false := by
  decide

/-- C20, amended: a request for `n = 0` elements calls `operator new(0)`: the heap gains one
block, which has no slots, and the address returned is not null.  `RawMemory(0)` holds that
address with capacity 0; `Vector(0)` and the copy of a vector of size 0 hold it with size 0
and capacity 0. -/
theorem C20_allocate_zero (E : ElemOps T) (h : Heap T) :
    (RawMemory.Allocate E h 0).1 ≠ nullptr ∧
    (RawMemory.Allocate E h 0).2.blocks.length = h.blocks.length + 1 ∧
    h.block? (RawMemory.Allocate E h 0).1.base = none ∧
    (RawMemory.Allocate E h 0).2.block? (RawMemory.Allocate E h 0).1.base = some [] ∧
    RawMemory.ctor_n E h 0 = (⟨(RawMemory.Allocate E h 0).1, 0⟩, (RawMemory.Allocate E h 0).2) ∧
    Vector.ctor_n E h 0
      = some (⟨0, ⟨(RawMemory.Allocate E h 0).1, 0⟩⟩, (RawMemory.Allocate E h 0).2) ∧
    ∀ d : RawMemory, Vector.ctor_copy E h ⟨0, d⟩
      = some (⟨0, ⟨(RawMemory.Allocate E h 0).1, 0⟩⟩, (RawMemory.Allocate E h 0).2) := by
  refine ⟨?_, ?_, ?_, ?_, rfl, rfl, fun _ => rfl⟩
  · simp [RawMemory.Allocate, operator_new, nullptr]
  · simp [RawMemory.Allocate, operator_new]
  · simp only [RawMemory.Allocate, operator_new, Heap.block?]
    rw [List.getElem?_eq_none (Nat.le_refl _)]
  · have := block?_operator_new_fresh E h (0 * E.sizeOf % SIZE_MOD)
    simpa [RawMemory.Allocate, operator_new] using this

/-- C12, as stated, fails: with 8-byte elements, `reserve(2 ^ 61 + 8)` on a vector of size 5
and capacity 8 asks `operator new` for `(2 ^ 61 + 8) * 8 mod 2 ^ 64 = 64` bytes and returns
with capacity `2 ^ 61 + 8` over a block of eight slots.  Three `push_back` calls later the
size is 8, still below the capacity, and the next `push_back` (either overload) does not
reserve and constructs the element outside the block, which is undefined behaviour. -/
theorem C12_push_back_growth_counterexample :
    demoA.WF natOps demoHeap3 ∧
    Vector.reserve natOps demoHeap3 demoA (2 ^ 61 + 8) = some (wrapA, wrapHeap) ∧
    push_all natOps wrapHeap wrapA [6, 7, 8] = some (wrapFull, wrapFullHeap) ∧
    wrapFull.size ≤ wrapFull.capacity ∧ wrapFull.size ≠ wrapFull.capacity ∧
    Vector.push_back natOps wrapFullHeap wrapFull 9 = none ∧
    Vector.push_back_move natOps wrapFullHeap wrapFull 9 = none := by
  decide

/-- C12, amended: for every vector `v` that satisfies the class invariant `Vector.WF`
(`size <= capacity`; the buffer is null with capacity 0, or is a block of exactly `capacity`
slots, of less than `2 ^ 64` bytes, whose first `size` slots hold live elements), when
`size < capacity` or `max(1, 2 * size) * sizeof(T)` is representable in `size_t`, after
`v.push_back(x)` (copy or move overload) the capacity is `max(1, 2 * old size)` if the old
size was the old capacity and is unchanged otherwise; the new element is at index
`old size` and the size has grown by exactly 1.  On a full vector in the class invariant
for which `max(1, 2 * size) * sizeof(T)` is not representable, both overloads have
undefined behaviour. -/
theorem C12_push_back_growth (E : ElemOps T) (h : Heap T) (v : Vector) (elem : T)
    (hw : v.WF E h) :
    ((v.size = v.capacity → max 1 (2 * v.size) * E.sizeOf < SIZE_MOD) →
      (∃ v1 h1, Vector.push_back E h v elem = some (v1, h1) ∧
        v1.capacity = (if v.size = v.capacity then max 1 (2 * v.size) else v.capacity) ∧
        Vector.index h1 v1 v.size = some (E.copy elem) ∧ v1.size = v.size + 1) ∧
      (∃ v1 h1, Vector.push_back_move E h v elem = some (v1, h1) ∧
        v1.capacity = (if v.size = v.capacity then max 1 (2 * v.size) else v.capacity) ∧
        Vector.index h1 v1 v.size = some (E.move elem) ∧ v1.size = v.size + 1)) ∧
    (v.size = v.capacity → SIZE_MOD ≤ max 1 (2 * v.size) * E.sizeOf →
      Vector.push_back E h v elem = none ∧ Vector.push_back_move E h v elem = none) := by
  constructor
  · intro hov
    constructor
    · obtain ⟨v1, h1, e1, e2, e3, _, e5, _⟩ := push_back_spec E h v elem hw hov
      exact ⟨v1, h1, e1, e3, e5, e2⟩
    · obtain ⟨v1, h1, e1, e2, e3, _, e5, _⟩ :=
        push_back_spec (E.withCopy E.move) h v elem hw hov
      exact ⟨v1, h1, (push_back_move_eq E h v elem).trans e1, e3, e5, e2⟩
  · intro hfull hge
    exact ⟨push_back_overflow_none E h v elem hw hfull hge,
      (push_back_move_eq E h v elem).trans
        (push_back_overflow_none (E.withCopy E.move) h v elem hw hfull hge)⟩

/-- C12 amended, at a full vector (size 2, capacity 2: the capacity becomes 4). -/
theorem C12_push_back_growth_witness :
    (demoB.WF natOps demoHeap3 ∧
      (demoB.size = demoB.capacity → max 1 (2 * demoB.size) * natOps.sizeOf < SIZE_MOD)) ∧
    ((∃ v1 h1, Vector.push_back natOps demoHeap3 demoB 9 = some (v1, h1) ∧
      v1.capacity = (if demoB.size = demoB.capacity then max 1 (2 * demoB.size)
        else demoB.capacity) ∧
      Vector.index h1 v1 demoB.size = some (natOps.copy 9) ∧ v1.size = demoB.size + 1) ∧
    (∃ v1 h1, Vector.push_back_move natOps demoHeap3 demoB 9 = some (v1, h1) ∧
      v1.capacity = (if demoB.size = demoB.capacity then max 1 (2 * demoB.size)
        else demoB.capacity) ∧
      Vector.index h1 v1 demoB.size = some (natOps.move 9) ∧ v1.size = demoB.size + 1)) ∧
    (Vector.push_back natOps demoHeap3 demoB 9).map (fun r => (r.1.size, r.1.capacity))
      = some (3, 4) :=
  ⟨⟨by decide, by decide⟩,
    (C12_push_back_growth natOps demoHeap3 demoB 9 (by decide)).1 (by decide), by decide⟩

/-- C13: appending `N >= 1` elements by `push_back` to a default-constructed vector changes
`capacity()` in exactly `ceil(log2 N) + 1` of the `N` calls, hence in at most that many, and
the final capacity is the smallest power of two that is at least `N`, when
`2 * N * sizeof(T)` does not overflow `size_t`. -/
theorem C13_push_back_reallocations (E : ElemOps T) (h : Heap T) (xs : List T)
    (hne : 1 ≤ xs.length) (hsize : 2 * xs.length * E.sizeOf < SIZE_MOD) :
    ∃ v h1 k, push_all_count E h Vector.ctor_default xs = some (v, h1, k) ∧
      push_all E h Vector.ctor_default xs = some (v, h1) ∧
      k = Nat.clog 2 xs.length + 1 ∧ k ≤ Nat.clog 2 xs.length + 1 ∧
      v.capacity = 2 ^ Nat.clog 2 xs.length ∧ xs.length ≤ v.capacity ∧
      ∀ j, xs.length ≤ 2 ^ j → v.capacity ≤ 2 ^ j := by
  obtain ⟨v, h1, k, e1, _, e3, e4, _⟩ := push_all_count_empty E h xs hne hsize
  refine ⟨v, h1, k, e1, ?_, e3, Nat.le_of_eq e3, e4, ?_, ?_⟩
  · rw [← push_all_count_run, e1]
    rfl
  · rw [Vector.capacity, e4]
    exact Nat.le_pow_clog (by decide) _
  · intro j hj
    rw [Vector.capacity, e4]
    exact Nat.pow_le_pow_right (by decide) ((Nat.le_pow_iff_clog_le (by decide)).1 hj)

/-- C13 at five appended values: three capacity changes after the first one (capacities
1, 2, 4, 8), final capacity 8. -/
theorem C13_push_back_reallocations_witness :
    (1 ≤ [1, 2, 3, 4, 5].length ∧ 2 * [1, 2, 3, 4, 5].length * natOps.sizeOf < SIZE_MOD) ∧
    (∃ v h1 k, push_all_count natOps Heap.empty Vector.ctor_default [1, 2, 3, 4, 5]
        = some (v, h1, k) ∧
      push_all natOps Heap.empty Vector.ctor_default [1, 2, 3, 4, 5] = some (v, h1) ∧
      k = Nat.clog 2 [1, 2, 3, 4, 5].length + 1 ∧ k ≤ Nat.clog 2 [1, 2, 3, 4, 5].length + 1 ∧
      v.capacity = 2 ^ Nat.clog 2 [1, 2, 3, 4, 5].length ∧
      [1, 2, 3, 4, 5].length ≤ v.capacity ∧
      ∀ j, [1, 2, 3, 4, 5].length ≤ 2 ^ j → v.capacity ≤ 2 ^ j) ∧
    (push_all_count natOps Heap.empty Vector.ctor_default [1, 2, 3, 4, 5]).map
      (fun r => (r.1.capacity, r.2.2)) = some (8, 4) :=
  ⟨⟨by decide, by decide⟩,
    C13_push_back_reallocations natOps Heap.empty [1, 2, 3, 4, 5] (by decide) (by decide),
    by decide⟩

/-- C11, as stated, fails: with 8-byte elements the sized constructor `Vector(2 ^ 61 + 1)`
obtains a block of one slot (the byte count wraps to 8) and value-constructs the second
element outside it, and `resize(2 ^ 61 + 1)` on a vector of size 3 and capacity 4 moves its
second element outside such a block: both have undefined behaviour, so nothing holds after
them. -/
theorem C11_size_le_capacity_counterexample :
    Vector.ctor_n natOps (Heap.empty : Heap Nat) (2 ^ 61 + 1) = none ∧
    demoVec.WF natOps demoHeap ∧ Vector.resize natOps demoHeap demoVec (2 ^ 61 + 1) = none := by
  decide

/-- C11, amended: `size() <= capacity()` holds after the default, copy and move
constructors and, on vectors that satisfy the class invariant, after swap, copy assignment,
move assignment, `clear` and `pop_back` on a non-empty vector, for both operands where two
vectors are involved.  The sized constructor `Vector(n)`, `reserve(n)` and `resize(n)`
return with the class invariant when `n * sizeof(T)` is representable in `size_t`, and
`push_back` (both overloads) when `size < capacity` or `max(1, 2 * size) * sizeof(T)` is
representable in `size_t`; and whenever one of these four returns at all,
`size() <= capacity()` holds. -/
theorem C11_size_le_capacity (E : ElemOps T) (h : Heap T) (a b : Vector) (n : Nat) (elem : T)
    (ha : a.WF E h) (hb : b.WF E h) (hsep : a.Separate b) :
    (Vector.ctor_default.size ≤ Vector.ctor_default.capacity ∧ Vector.ctor_default.WF E h) ∧
    ((∀ v h1, Vector.ctor_n E h n = some (v, h1) → v.size ≤ v.capacity) ∧
      (n * E.sizeOf < SIZE_MOD → ∃ v h1, Vector.ctor_n E h n = some (v, h1) ∧
        v.size ≤ v.capacity ∧ v.WF E h1)) ∧
    (∃ v h1, Vector.ctor_copy E h a = some (v, h1) ∧ v.size ≤ v.capacity ∧ v.WF E h1 ∧
      a.WF E h1) ∧
    ((Vector.ctor_move a).1.size ≤ (Vector.ctor_move a).1.capacity ∧
      (Vector.ctor_move a).2.size ≤ (Vector.ctor_move a).2.capacity ∧
      (Vector.ctor_move a).1.WF E h ∧ (Vector.ctor_move a).2.WF E h) ∧
    ((Vector.swap a b).1.size ≤ (Vector.swap a b).1.capacity ∧
      (Vector.swap a b).2.size ≤ (Vector.swap a b).2.capacity ∧
      (Vector.swap a b).1.WF E h ∧ (Vector.swap a b).2.WF E h) ∧
    (∃ a1 h1, Vector.assign_copy E h a b = some (a1, h1) ∧ a1.size ≤ a1.capacity ∧
      b.size ≤ b.capacity ∧ a1.WF E h1 ∧ b.WF E h1) ∧
    ((Vector.assign_move a b).1.size ≤ (Vector.assign_move a b).1.capacity ∧
      (Vector.assign_move a b).2.size ≤ (Vector.assign_move a b).2.capacity ∧
      (Vector.assign_move a b).1.WF E h ∧ (Vector.assign_move a b).2.WF E h) ∧
    ((∀ v1 h1, Vector.reserve E h a n = some (v1, h1) → v1.size ≤ v1.capacity) ∧
      (n * E.sizeOf < SIZE_MOD → ∃ v1 h1, Vector.reserve E h a n = some (v1, h1) ∧
        v1.size ≤ v1.capacity ∧ v1.WF E h1)) ∧
    ((∀ v1 h1, Vector.resize E h a n = some (v1, h1) → v1.size ≤ v1.capacity) ∧
      (n * E.sizeOf < SIZE_MOD → ∃ v1 h1, Vector.resize E h a n = some (v1, h1) ∧
        v1.size ≤ v1.capacity ∧ v1.WF E h1)) ∧
    ((∀ v1 h1, Vector.push_back E h a elem = some (v1, h1) → v1.size ≤ v1.capacity) ∧
      ((a.size = a.capacity → max 1 (2 * a.size) * E.sizeOf < SIZE_MOD) →
        ∃ v1 h1, Vector.push_back E h a elem = some (v1, h1) ∧ v1.size ≤ v1.capacity ∧
          v1.WF E h1)) ∧
    ((∀ v1 h1, Vector.push_back_move E h a elem = some (v1, h1) → v1.size ≤ v1.capacity) ∧
      ((a.size = a.capacity → max 1 (2 * a.size) * E.sizeOf < SIZE_MOD) →
        ∃ v1 h1, Vector.push_back_move E h a elem = some (v1, h1) ∧ v1.size ≤ v1.capacity ∧
          v1.WF E h1)) ∧
    (∃ v1 h1, Vector.clear E h a = some (v1, h1) ∧ v1.size ≤ v1.capacity ∧ v1.WF E h1) ∧
    (0 < a.size → ∃ v1 h1, Vector.pop_back h a = some (v1, h1) ∧ v1.size ≤ v1.capacity ∧
      v1.WF E h1) := by
  have hd := ctor_default_WF E h
  refine ⟨⟨hd.1, hd⟩, ⟨fun v h1 hr => ctor_n_size_le E h n hr, ?_⟩, ?_, ⟨ha.1, hd.1, ha, hd⟩,
    ⟨hb.1, ha.1, hb, ha⟩, ?_, ⟨hb.1, ha.1, hb, ha⟩,
    ⟨fun v1 h1 hr => reserve_size_le E h a n ha.1 hr, ?_⟩,
    ⟨fun v1 h1 hr => resize_size_le E h a n hr, ?_⟩,
    ⟨fun v1 h1 hr => push_back_size_le E h a elem ha hr, ?_⟩,
    ⟨fun v1 h1 hr => push_back_size_le (E.withCopy E.move) h a elem ha
      ((push_back_move_eq E h a elem).symm.trans hr), ?_⟩, ?_, ?_⟩
  · intro hn
    obtain ⟨h1, e1, e2, _⟩ := ctor_n_spec E h n hn
    exact ⟨_, h1, e1, e2.1, e2⟩
  · obtain ⟨v, h1, e1, _, _, _, _, e6, e7, _⟩ := ctor_copy_spec E h a ha
    exact ⟨v, h1, e1, e7.1, e7, e6⟩
  · obtain ⟨a1, h1, e1, _, e3, e4⟩ := assign_copy_total E h a b ha hb hsep
    exact ⟨a1, h1, e1, e3.1, hb.1, e3, e4⟩
  · intro hn
    obtain ⟨v1, h1, e1, _, _, e4, _⟩ := reserve_spec E h a n ha hn
    exact ⟨v1, h1, e1, e4.1, e4⟩
  · intro hn
    obtain ⟨v1, h1, e1, _, _, e4, _⟩ := resize_spec E h a n ha hn
    exact ⟨v1, h1, e1, e4.1, e4⟩
  · intro hov
    obtain ⟨v1, h1, e1, _, _, e4, _⟩ := push_back_spec E h a elem ha hov
    exact ⟨v1, h1, e1, e4.1, e4⟩
  · intro hov
    obtain ⟨v1, h1, e1, _, _, e4, _⟩ := push_back_spec (E.withCopy E.move) h a elem ha hov
    exact ⟨v1, h1, (push_back_move_eq E h a elem).trans e1, e4.1, e4⟩
  · obtain ⟨v1, h1, e1, _, _, e4, _⟩ := resize_spec E h a 0 ha (by simp [SIZE_MOD])
    exact ⟨v1, h1, e1, e4.1, e4⟩
  · intro hpos
    obtain ⟨h1, e1, e2, _⟩ := pop_back_spec E h a ha hpos
    exact ⟨_, h1, e1, e2.1, e2⟩

/-- C11 amended, at the vectors of sizes 5 and 2 of `demoHeap3`, `n = 6` and one appended
value: the sized constructor, `resize`, `push_back` and `pop_back` return with
`size() <= capacity()`. -/
theorem C11_size_le_capacity_witness :
    (demoA.WF natOps demoHeap3 ∧ demoB.WF natOps demoHeap3 ∧ demoA.Separate demoB) ∧
    (∃ v h1, Vector.ctor_n natOps demoHeap3 6 = some (v, h1) ∧ v.size ≤ v.capacity ∧
      v.WF natOps h1) ∧
    (∃ a1 h1, Vector.assign_copy natOps demoHeap3 demoA demoB = some (a1, h1) ∧
      a1.size ≤ a1.capacity ∧ demoB.size ≤ demoB.capacity ∧ a1.WF natOps h1 ∧
      demoB.WF natOps h1) ∧
    (∃ v1 h1, Vector.resize natOps demoHeap3 demoA 6 = some (v1, h1) ∧
      v1.size ≤ v1.capacity ∧ v1.WF natOps h1) ∧
    (∃ v1 h1, Vector.push_back natOps demoHeap3 demoA 9 = some (v1, h1) ∧
      v1.size ≤ v1.capacity ∧ v1.WF natOps h1) ∧
    (∃ v1 h1, Vector.pop_back demoHeap3 demoA = some (v1, h1) ∧ v1.size ≤ v1.capacity ∧
      v1.WF natOps h1) := by
  have t := C11_size_le_capacity natOps demoHeap3 demoA demoB 6 9 (by decide) (by decide)
    (Or.inl (by decide))
  exact ⟨⟨by decide, by decide, Or.inl (by decide)⟩, t.2.1.2 (by decide), t.2.2.2.2.2.1,
    t.2.2.2.2.2.2.2.2.1.2 (by decide), t.2.2.2.2.2.2.2.2.2.1.2 (by decide),
    t.2.2.2.2.2.2.2.2.2.2.2.2 (by decide)⟩

/-- C15, as stated, fails, in two ways.  With 8-byte elements, on the copy `b` of a vector
of size 3, `b.resize(2 ^ 61)` asks `operator new` for 0 bytes and moves the elements of `b`
outside the new block: undefined behaviour, after which nothing is guaranteed about `a`.
And for the vector `a` that `reserve(2 ^ 61 + 8)` returns from size 5 and capacity 8
(capacity `2 ^ 61 + 8` over a block of eight slots), the copy `b = Vector(a)` is built, and
`a.resize(20)` then value-constructs the ninth element outside the block of `a`: undefined
behaviour, after which nothing is guaranteed about `b`. -/
theorem C15_copy_independence_counterexample :
    (demoVec.WF natOps demoHeap ∧
      (Vector.ctor_copy natOps demoHeap demoVec).bind
        (fun r => Vector.resize natOps r.2 r.1 (2 ^ 61)) = none) ∧
    (demoA.WF natOps demoHeap3 ∧
      Vector.reserve natOps demoHeap3 demoA (2 ^ 61 + 8) = some (wrapA, wrapHeap) ∧
      wrapA.size ≤ wrapA.capacity ∧
      (Vector.ctor_copy natOps wrapHeap wrapA).isSome = true ∧
      20 * natOps.sizeOf < SIZE_MOD ∧
      (Vector.ctor_copy natOps wrapHeap wrapA).bind
        (fun r => Vector.resize natOps r.2 wrapA 20) = none) := by
  decide

/-- C15, amended: for every vector `a` that satisfies the class invariant `Vector.WF`
(`size <= capacity`; the buffer is null with capacity 0, or is a block of exactly `capacity`
slots, of less than `2 ^ 64` bytes, whose first `size` slots hold live elements) and its
copy `b = Vector(a)`, each of
`b.push_back(x)` (when `max(1, 2 * size) * sizeof(T)` is representable in `size_t`),
`b.pop_back()` on a non-empty `b`, `b.resize(n)` (when `n * sizeof(T)` is representable in
`size_t`) and `b[i] = x` with `i < size` leaves the block of `a`, hence the size and every
element of `a`, unchanged; and the same calls on `a` (`push_back` when `size < capacity`
or the doubled size is representable) leave the block, size and elements of `b`
unchanged. -/
theorem C15_copy_independence (E : ElemOps T) (h : Heap T) (a : Vector) (ha : a.WF E h) :
    ∃ b h1, Vector.ctor_copy E h a = some (b, h1) ∧ a.WF E h1 ∧ b.WF E h1 ∧
      (∀ i, Vector.index h1 a i = Vector.index h a i) ∧
      ((∀ x, (b.size = b.capacity → max 1 (2 * b.size) * E.sizeOf < SIZE_MOD) →
          ∃ b2 h2, Vector.push_back E h1 b x = some (b2, h2) ∧ a.WF E h2 ∧
            ∀ i, Vector.index h2 a i = Vector.index h1 a i) ∧
        (0 < b.size → ∃ b2 h2, Vector.pop_back h1 b = some (b2, h2) ∧ a.WF E h2 ∧
          ∀ i, Vector.index h2 a i = Vector.index h1 a i) ∧
        (∀ n, n * E.sizeOf < SIZE_MOD → ∃ b2 h2, Vector.resize E h1 b n = some (b2, h2) ∧
          a.WF E h2 ∧ ∀ i, Vector.index h2 a i = Vector.index h1 a i) ∧
        (∀ j x, j < b.size → ∃ h2, Vector.assign_index E h1 b j x = some h2 ∧ a.WF E h2 ∧
          ∀ i, Vector.index h2 a i = Vector.index h1 a i)) ∧
      ((∀ x, (a.size = a.capacity → max 1 (2 * a.size) * E.sizeOf < SIZE_MOD) →
          ∃ a2 h2, Vector.push_back E h1 a x = some (a2, h2) ∧ b.WF E h2 ∧
            ∀ i, Vector.index h2 b i = Vector.index h1 b i) ∧
        (0 < a.size → ∃ a2 h2, Vector.pop_back h1 a = some (a2, h2) ∧ b.WF E h2 ∧
          ∀ i, Vector.index h2 b i = Vector.index h1 b i) ∧
        (∀ n, n * E.sizeOf < SIZE_MOD → ∃ a2 h2, Vector.resize E h1 a n = some (a2, h2) ∧
          b.WF E h2 ∧ ∀ i, Vector.index h2 b i = Vector.index h1 b i) ∧
        (∀ j x, j < a.size → ∃ h2, Vector.assign_index E h1 a j x = some h2 ∧ b.WF E h2 ∧
          ∀ i, Vector.index h2 b i = Vector.index h1 b i)) := by
  obtain ⟨b, h1, e1, _, _, _, e5, e6, e7, e8, _⟩ := ctor_copy_spec E h a ha
  have hne : a.data.buf.base ≠ b.data.buf.base := by
    rw [e8]
    exact ha.ne_fresh
  obtain ⟨p1, p2, p3, p4⟩ := mutate_frame E h1 b a e7 e6 hne
  obtain ⟨q1, q2, q3, q4⟩ := mutate_frame E h1 a b e6 e7 (Ne.symm hne)
  refine ⟨b, h1, e1, e6, e7, fun i => Vector.index_frame i e5, ⟨?_, ?_, ?_, ?_⟩,
    ⟨?_, ?_, ?_, ?_⟩⟩
  · intro x hov
    obtain ⟨b2, h2, f1, f2⟩ := p1 x hov
    exact ⟨b2, h2, f1, e6.frame f2, fun i => Vector.index_frame i f2⟩
  · intro hpos
    obtain ⟨b2, h2, f1, f2⟩ := p2 hpos
    exact ⟨b2, h2, f1, e6.frame f2, fun i => Vector.index_frame i f2⟩
  · intro n hn
    obtain ⟨b2, h2, f1, f2⟩ := p3 n hn
    exact ⟨b2, h2, f1, e6.frame f2, fun i => Vector.index_frame i f2⟩
  · intro j x hj
    obtain ⟨h2, f1, f2⟩ := p4 j x hj
    exact ⟨h2, f1, e6.frame f2, fun i => Vector.index_frame i f2⟩
  · intro x hov
    obtain ⟨a2, h2, f1, f2⟩ := q1 x hov
    exact ⟨a2, h2, f1, e7.frame f2, fun i => Vector.index_frame i f2⟩
  · intro hpos
    obtain ⟨a2, h2, f1, f2⟩ := q2 hpos
    exact ⟨a2, h2, f1, e7.frame f2, fun i => Vector.index_frame i f2⟩
  · intro n hn
    obtain ⟨a2, h2, f1, f2⟩ := q3 n hn
    exact ⟨a2, h2, f1, e7.frame f2, fun i => Vector.index_frame i f2⟩
  · intro j x hj
    obtain ⟨h2, f1, f2⟩ := q4 j x hj
    exact ⟨h2, f1, e7.frame f2, fun i => Vector.index_frame i f2⟩

/-- C15 amended, at a vector of size 3 and capacity 4; the copy holds 1, 2, 3 and the
original still does after `b[0] = 9`, while `b[0]` is 9. -/
theorem C15_copy_independence_witness :
    demoVec.WF natOps demoHeap ∧
    (∃ b h1, Vector.ctor_copy natOps demoHeap demoVec = some (b, h1) ∧
      (∀ i, Vector.index h1 demoVec i = Vector.index demoHeap demoVec i) ∧
      (∀ j x, j < b.size → ∃ h2, Vector.assign_index natOps h1 b j x = some h2 ∧
        demoVec.WF natOps h2 ∧
        ∀ i, Vector.index h2 demoVec i = Vector.index h1 demoVec i)) ∧
    ((Vector.ctor_copy natOps demoHeap demoVec).bind (fun r =>
      (Vector.assign_index natOps r.2 r.1 0 9).map (fun h2 =>
        (Vector.index h2 demoVec 0, Vector.index h2 r.1 0)))) = some (some 1, some 9) := by
  have t := C15_copy_independence natOps demoHeap demoVec (by decide)
  obtain ⟨b, h1, e1, _, _, e4, e5, _⟩ := t
  exact ⟨by decide, ⟨b, h1, e1, e4, e5.2.2.2⟩, by decide⟩

/-- C16: for vectors `a` and `b` with `b.size() > a.capacity()`, if building the temporary
copy of `b` throws (`operator new` fails, or the copy constructor of an element throws),
then `a = b` leaves `a` with the size, capacity, block and elements it had before the call;
the call throws in exactly these two cases, and a run in which nothing throws is the run of
copy assignment without exceptions. -/
theorem C16_copy_assign_strong_guarantee (F : Faults T) (E : ElemOps T) (h : Heap T)
    (a b : Vector) (ha : a.WF E h) (hb : b.WF E h) (hgt : b.size > a.capacity) :
    (∃ out, Vector.assign_copy_throwing F E h a b = some out ∧
      (∀ a1 h1, out = Outcome.thrown a1 h1 →
        a1.size = a.size ∧ a1.capacity = a.capacity ∧ a1 = a ∧ a.WF E h1 ∧
        h1.block? a.data.buf.base = h.block? a.data.buf.base ∧
        ∀ i, Vector.index h1 a i = Vector.index h a i) ∧
      (F.new_ok (b.size * E.sizeOf % SIZE_MOD) = false → out = Outcome.thrown a h) ∧
      (F.new_ok (b.size * E.sizeOf % SIZE_MOD) = true →
        (∃ i x, i < b.size ∧ Vector.index h b i = some x ∧ F.copy x = none) →
        ∃ h1, out = Outcome.thrown a h1)) ∧
    Vector.assign_copy_throwing (Faults.none E) E h a b
      = (Vector.assign_copy E h a b).map (fun r => Outcome.returned r.1 r.2) := by
  refine ⟨?_, assign_copy_throwing_none E h a b⟩
  obtain ⟨out, e1, e2, e3, e4⟩ := assign_copy_throwing_replace F E h a b ha hb hgt
  refine ⟨out, e1, ?_, e3, e4⟩
  intro a1 h1 he
  obtain ⟨f1, f2, _⟩ := e2 a1 h1 he
  have hk := f2 _ ha.ne_fresh
  rw [f1]
  exact ⟨rfl, rfl, rfl, ha.frame hk, hk, fun i => Vector.index_frame i hk⟩

/-- C16 at `a` of size 2 and capacity 2 and `b` of size 10 whose third element cannot be
copied: the call throws and `a` still holds 7, 8; it also throws, with the heap untouched,
when no memory is left. -/
theorem C16_copy_assign_strong_guarantee_witness :
    (demoB.WF natOps demoHeap3 ∧ demoC.WF natOps demoHeap3 ∧ demoC.size > demoB.capacity) ∧
    (∃ out, Vector.assign_copy_throwing failOn12 natOps demoHeap3 demoB demoC = some out ∧
      (∀ a1 h1, out = Outcome.thrown a1 h1 →
        a1.size = demoB.size ∧ a1.capacity = demoB.capacity ∧ a1 = demoB ∧
        demoB.WF natOps h1 ∧
        h1.block? demoB.data.buf.base = demoHeap3.block? demoB.data.buf.base ∧
        ∀ i, Vector.index h1 demoB i = Vector.index demoHeap3 demoB i) ∧
      (failOn12.new_ok (demoC.size * natOps.sizeOf % SIZE_MOD) = true →
        (∃ i x, i < demoC.size ∧ Vector.index demoHeap3 demoC i = some x ∧
          failOn12.copy x = none) →
        ∃ h1, out = Outcome.thrown demoB h1)) ∧
    (∃ i x, i < demoC.size ∧ Vector.index demoHeap3 demoC i = some x ∧
      failOn12.copy x = none) ∧
    Vector.assign_copy_throwing noMemory natOps demoHeap3 demoB demoC
      = some (Outcome.thrown demoB demoHeap3) := by
  have t := (C16_copy_assign_strong_guarantee failOn12 natOps demoHeap3 demoB demoC
    (by decide) (by decide) (by decide)).1
  obtain ⟨out, e1, e2, _, e4⟩ := t
  exact ⟨⟨by decide, by decide, by decide⟩, ⟨out, e1, e2, e4⟩,
    ⟨2, 12, by decide, by decide, by decide⟩, by decide⟩

end VectorH
